import Mathlib

/-!
Verification of the binding/resolution engine of the `inject` dependency
injection container (`safe.go`: `SafeInjector` and the annotation types).

The embedding models Go's reflection universe with a closed inductive type
universe `Ty` and a fixed instance `implementsB` of Go's structural
"implements" relation. Build closures (which in Go capture mutable state:
singleton caches and locks, previously registered bindings) are modelled as
syntactic trees `BuildFn` interpreted by a fuel-indexed evaluator `run`
over an explicit `World` holding every injector's state, the singleton
cells, the provider table and a log of provider invocations.
-/

namespace Inject

/-- Go `reflect.Type`, restricted to a closed universe: named concrete
types (`base`), interface types (`iface`), slices, maps and pointers. -/
inductive Ty where
  | base (n : Nat)
  | iface (n : Nat)
  | slice (elem : Ty)
  | tmap (key elem : Ty)
  | ptr (t : Ty)
deriving DecidableEq, Repr

instance : Inhabited Ty := ⟨.base 0⟩

/-- The runtime type of the injector value itself (`*SafeInjector`),
bound by `SafeNew`. -/
def injectorTy : Ty := .base 100

/-- The `SafeBinder` interface, bound by `SafeNew` via `BindTo`. -/
def binderIfaceTy : Ty := .iface 0

/-- A fixed instance of Go's `Implements` facts for the named types of the
universe: the injector type implements the binder interface, and the
concrete types 1 and 2 implement interface 1 (playing the role of e.g.
`fmt.Stringer`). All other pairs do not implement. -/
def implPairs : List (Nat × Nat) := [(100, 0), (1, 1), (2, 1)]

/-- Go `t.Implements(i)` on this universe (false whenever `i` is not an
interface type, as in Go for the pairs resolution ever asks about). -/
def implementsB : Ty → Ty → Bool
  | .base m, .iface n => implPairs.contains (m, n)
  | _, _ => false

/-- A fixed instance of Go's `ConvertibleTo` facts beyond identity: the
named types 0 and 3 are interconvertible (an `int`/`int64`-alias pair). -/
def convPairs : List (Nat × Nat) := [(0, 3), (3, 0)]

/-- Go `a.ConvertibleTo(b)` on this universe. -/
def convertibleTo (a b : Ty) : Bool :=
  a = b ||
    match a, b with
    | .base m, .base n => convPairs.contains (m, n)
    | _, _ => false

/-- Go runtime values. Slice and map payloads are kept as lists of
primitive `(type, payload)` elements, which covers every value the engine
ever constructs; `inj i` is the injector value itself, `nilv` the nil
interface value. -/
inductive Val where
  | prim (t : Ty) (n : Nat)
  | vslice (elem : Ty) (elems : List (Ty × Nat))
  | vmap (key elem : Ty) (entries : List ((Ty × Nat) × (Ty × Nat)))
  | inj (i : Nat)
  | nilv
deriving DecidableEq, Repr

instance : Inhabited Val := ⟨.nilv⟩

/-- Go `reflect.TypeOf` on values. (`TypeOf(nil)` is unusable in Go, its
`Kind()` panics; the engine never reaches that case, and we give `nilv` a
dedicated otherwise-unused type.) -/
def Val.typeOf : Val → Ty
  | .prim t _ => t
  | .vslice e _ => .slice e
  | .vmap k e _ => .tmap k e
  | .inj _ => injectorTy
  | .nilv => .base 999

/-- The element list of a slice value (used by `reflect.AppendSlice`). -/
def elemsOf : Val → List (Ty × Nat)
  | .vslice _ es => es
  | _ => []

/-- The entry list of a map value (used by `MapKeys`/`MapIndex`). -/
def entriesOf : Val → List ((Ty × Nat) × (Ty × Nat))
  | .vmap _ _ es => es
  | _ => []

/-- Go `reflect.Value.Convert` on the convertible pairs of the universe:
a base-typed primitive is retagged with the target type. -/
def convertVal (v : Val) (target : Ty) : Val :=
  match v with
  | .prim _ n => .prim target n
  | v => v

/-- `SetMapIndex`: replace the value under a key, or append the entry. -/
def mapPut (es : List ((Ty × Nat) × (Ty × Nat))) (k v : Ty × Nat) :
    List ((Ty × Nat) × (Ty × Nat)) :=
  match es with
  | [] => [(k, v)]
  | (k', v') :: rest => if k' = k then (k, v) :: rest else (k', v') :: mapPut rest k v

/-- Overlay every entry of `add` onto `acc` (later keys win). -/
def mapOverlay (acc add : List ((Ty × Nat) × (Ty × Nat))) :
    List ((Ty × Nat) × (Ty × Nat)) :=
  add.foldl (fun m kv => mapPut m kv.1 kv.2) acc

/-- The error values the engine produces (structured counterparts of the
`fmt.Errorf` messages in the source). -/
inductive Err where
  | unbound (t : Ty)
  | recursiveBinding
  | alreadyBound (t : Ty)
  | notSlice (t : Ty)
  | notMap (t : Ty)
  | onlyProviders
  | notImplements (impl target : Ty)
  | notConvertible (impl target : Ty)
  | argErr (pos : Nat) (e : Err)
  | userErr (n : Nat)
deriving DecidableEq, Repr

/-- A binding's build closure, as a syntactic tree. `provider inj pid`
is a provider function's build (it calls `inj.Call` on provider `pid`);
`singleton cid inner` memoizes `inner` in cell `cid` behind that cell's
lock; `seqChain`/`mapChain` capture the previously registered binding's
build (`Sequence`/`Mapping` merging); `convert` is the wrapping build of
`BindTo`'s conversion mode; `aggSlice`/`aggMap` are the aggregate builds
synthesized by `resolveSlice`/`resolveMapping`. -/
inductive BuildFn where
  | lit (v : Val)
  | provider (inj pid : Nat)
  | singleton (cid : Nat) (inner : BuildFn)
  | seqChain (t : Ty) (prev : Option BuildFn) (inner : BuildFn)
  | mapChain (t : Ty) (prev : Option BuildFn) (inner : BuildFn)
  | convert (target : Ty) (inner : BuildFn)
  | aggSlice (t : Ty) (parts : List BuildFn)
  | aggMap (t : Ty) (parts : List BuildFn)

instance : Inhabited BuildFn := ⟨.lit .nilv⟩

/-- Go `Binding`: provides-type, required types, build function. -/
structure Binding where
  Provides : Ty
  Requires : List Ty
  Build : BuildFn

instance : Inhabited Binding := ⟨⟨default, [], default⟩⟩

/-- A provider function's reflected shape and (pure) body. A Go provider
returns `(T)` or `(T, error)`; both shapes are covered by the `impl`
returning a value together with an optional error (`none` for the
one-return shape or a nil error). -/
structure FnSpec where
  args : List Ty
  ret : Ty
  impl : List Val → Val × Option Err

instance : Inhabited FnSpec := ⟨⟨[], default, fun _ => (.nilv, none)⟩⟩

/-- The mutable state captured by one `Singleton` build closure: its
`sync.Mutex` (`locked`), `isCached` flag and `cached` value. -/
structure Cell where
  locked : Bool := false
  isCached : Bool := false
  cached : Val := .nilv

instance : Inhabited Cell := ⟨{}⟩

/-- One `SafeInjector`'s state: parent pointer, binding table (an
association list standing for the Go map, kept in insertion order),
insertion-order ledger and the in-construction set (`stack`). -/
structure InjState where
  parent : Option Nat := none
  bindings : List (Ty × Binding) := []
  bindingOrder : List Ty := []
  stack : List Ty := []

instance : Inhabited InjState := ⟨{}⟩

/-- The whole mutable world: every injector, every singleton cell, the
fixed provider table, and a log of provider-function invocations (one
pid appended per actual call of a provider's underlying function). -/
structure World where
  injectors : List InjState
  cells : List Cell
  provs : List FnSpec
  log : List Nat

def World.injAt (w : World) (i : Nat) : InjState := w.injectors.getD i default

def World.setInj (w : World) (i : Nat) (s : InjState) : World :=
  { w with injectors := w.injectors.set i s }

def World.cellAt (w : World) (c : Nat) : Cell := w.cells.getD c default

def World.setCell (w : World) (c : Nat) (v : Cell) : World :=
  { w with cells := w.cells.set c v }

def World.pushLog (w : World) (pid : Nat) : World :=
  { w with log := w.log ++ [pid] }

/-- Lookup in the binding table (`s.bindings[t]`). -/
def lookupB (bs : List (Ty × Binding)) (t : Ty) : Option Binding :=
  match bs with
  | [] => none
  | (t', b) :: rest => if t' = t then some b else lookupB rest t

/-- Table update (`s.bindings[t] = b`): replace in place or append. -/
def insertB (bs : List (Ty × Binding)) (t : Ty) (b : Binding) :
    List (Ty × Binding) :=
  match bs with
  | [] => [(t, b)]
  | (t', b') :: rest =>
    if t' = t then (t, b) :: rest else (t', b') :: insertB rest t b

/-- The interface scan of `resolve` step 2: the first table entry whose
key implements the interface `t`. (Go iterates the map in unspecified
order; we fix the table's list order, a documented ambiguity of the
design that no claim depends on.) -/
def scanIface (bs : List (Ty × Binding)) (t : Ty) : Option Binding :=
  match bs with
  | [] => none
  | (bt, b) :: rest => if implementsB bt t then some b else scanIface rest t

/-- `resolveSlice`'s collection loop: every binding, in registration
order (`bindingOrder`, duplicates included), whose key is a slice type
whose element type implements `et`. -/
def collectSlice (s : InjState) (et : Ty) : List Binding :=
  s.bindingOrder.filterMap fun bt =>
    match bt with
    | .slice e => if implementsB e et then lookupB s.bindings bt else none
    | _ => none

/-- `resolveMapping`'s collection loop: bindings whose key is a map type
with matching key type whose element type implements `et`. -/
def collectMap (s : InjState) (k et : Ty) : List Binding :=
  s.bindingOrder.filterMap fun bt =>
    match bt with
    | .tmap k' e => if k' = k && implementsB e et then lookupB s.bindings bt else none
    | _ => none

/-- The aggregate binding `resolveSlice` synthesizes for a slice-of-
interface type `t`: requires the concatenation of the collected
bindings' requires, builds by concatenating their built slices. -/
def mkSliceBinding (s : InjState) (t et : Ty) : Binding :=
  let parts := collectSlice s et
  { Provides := t
    Requires := (parts.map Binding.Requires).flatten
    Build := .aggSlice t (parts.map Binding.Build) }

/-- The aggregate binding `resolveMapping` synthesizes for a
map-of-interface type `t`. -/
def mkMapBinding (s : InjState) (t k et : Ty) : Binding :=
  let parts := collectMap s k et
  { Provides := t
    Requires := (parts.map Binding.Requires).flatten
    Build := .aggMap t (parts.map Binding.Build) }

/-- `SafeInjector.resolve`: exact table hit; interface scan; synthesized
slice-of-interface aggregate; synthesized map-of-interface aggregate;
parent delegation; unbound error. The fuel only bounds the parent-chain
depth (every theorem's fuel exceeds it). -/
def resolve (w : World) : Nat → Nat → Ty → Except Err Binding
  | 0, _, t => .error (.unbound t)
  | fuel + 1, i, t =>
    let s := w.injAt i
    match lookupB s.bindings t with
    | some b => .ok b
    | none =>
      match t with
      | .iface m =>
        match scanIface s.bindings (.iface m) with
        | some b => .ok b
        | none =>
          match s.parent with
          | some p => resolve w fuel p t
          | none => .error (.unbound t)
      | .slice (.iface m) => .ok (mkSliceBinding s (.slice (.iface m)) (.iface m))
      | .tmap k (.iface m) => .ok (mkMapBinding s (.tmap k (.iface m)) k (.iface m))
      | _ =>
        match s.parent with
        | some p => resolve w fuel p t
        | none => .error (.unbound t)

/-- `getReflected`'s pointer-to-interface unwrapping. -/
def tyUnwrap : Ty → Ty
  | .ptr (.iface n) => .iface n
  | t => t

/-- A returned `(values, error)` pair. A build returns one value
(`vals = [v]`); `Call` returns the callee's non-error return values. -/
structure Ret where
  vals : List Val
  err : Option Err

/-- The outcome of an evaluation: a normal return, or no return at all
(`hang`: a `sync.Mutex` self-deadlock, or fuel exhaustion standing for a
run longer than the fuel bound). -/
inductive Outcome where
  | ok (r : Ret)
  | hang

/-- The evaluator's work items: running a build function, `getReflected`,
`Call` on provider `pid`, `Call`'s argument-gathering loop, the aggregate
builds' loop over collected bindings, and the tail halves of the
`Sequence`/`Mapping` chain builds. -/
inductive Task where
  | build (fn : BuildFn)
  | get (i : Nat) (t : Ty)
  | call (i : Nat) (pid : Nat)
  | args (i : Nat) (ts : List Ty) (pos : Nat)
  | each (fns : List BuildFn)
  | seqStep (t : Ty) (acc : List (Ty × Nat)) (inner : BuildFn)
  | mapStep (t : Ty) (acc : List ((Ty × Nat) × (Ty × Nat))) (inner : BuildFn)

/-- Element type of a slice type / value type of a map type. -/
def tyElem : Ty → Ty
  | .slice e => e
  | .tmap _ e => e
  | _ => .base 999

/-- Key type of a map type. -/
def tyKey : Ty → Ty
  | .tmap k _ => k
  | _ => .base 999

/-- Sequencing of evaluation results: a hang propagates; a normal
return (even an error return, which several call sites inspect) feeds
the continuation. -/
def andThen (r : Outcome × World) (k : World → Ret → Outcome × World) :
    Outcome × World :=
  match r with
  | (.hang, w) => (.hang, w)
  | (.ok ret, w) => k w ret

/-- The fuel-indexed evaluator over the world. Every Go closure of the
source is one `Task`/`BuildFn` case:

* `.build (.lit v)` — `literalAnnotation.Build`'s closure: return `v`.
* `.build (.provider j pid)` — `providerType.Build`'s closure:
  `rv, err := j.Call(p.v)`, propagating the error with a nil value.
* `.build (.singleton cid inner)` — `singletonType.Build`'s closure:
  lock the cell (a second locker self-deadlocks: `hang`), return the
  cache if present, otherwise build `inner`, cache result-and-flag even
  on failure, unlock.
* `.build (.seqChain/.mapChain ...)` — `sequenceType`/`mappingType`
  build closures: replay the captured previous binding's build (if any),
  then the own build, concatenating / overlaying.
* `.build (.convert t inner)` — `BindTo`'s conversion wrapper.
* `.build (.aggSlice/.aggMap t parts)` — the synthesized aggregate
  builds of `resolveSlice`/`resolveMapping`.
* `.get i t` — `getReflected`: unwrap pointer-to-interface, `resolve`,
  recursion guard on the binding's provides-type against injector `i`'s
  in-construction set, build with the guard marked, unmark on exit.
* `.call i pid` — `SafeInjector.Call`: gather the arguments by `.get`
  (wrapping a failure as that positional argument's error), invoke the
  function (logging `pid`), propagate its trailing error with nil values.
* `.args`, `.each`, `.seqStep`, `.mapStep` — the loops of the above. -/
def run : Nat → World → Task → Outcome × World
  | 0, w, _ => (.hang, w)
  | f + 1, w, tk =>
    match tk with
    | .build fn =>
      match fn with
      | .lit v => (.ok ⟨[v], none⟩, w)
      | .provider j pid =>
        andThen (run f w (.call j pid)) fun w₁ r =>
          match r with
          | ⟨_, some e⟩ => (.ok ⟨[.nilv], some e⟩, w₁)
          | ⟨vs, none⟩ => (.ok ⟨[vs.headD .nilv], none⟩, w₁)
      | .singleton cid inner =>
        if (w.cellAt cid).locked then (.hang, w)
        else if (w.cellAt cid).isCached then (.ok ⟨[(w.cellAt cid).cached], none⟩, w)
        else
          andThen (run f (w.setCell cid ⟨true, false, (w.cellAt cid).cached⟩)
              (.build inner)) fun w₁ r =>
            (.ok ⟨[r.vals.headD .nilv], r.err⟩,
              w₁.setCell cid ⟨false, true, r.vals.headD .nilv⟩)
      | .seqChain t prev inner =>
        match prev with
        | none => run f w (.seqStep t [] inner)
        | some p =>
          andThen (run f w (.build p)) fun w₁ r =>
            match r with
            | ⟨_, some e⟩ => (.ok ⟨[.nilv], some e⟩, w₁)
            | ⟨vs, none⟩ => run f w₁ (.seqStep t (elemsOf (vs.headD .nilv)) inner)
      | .mapChain t prev inner =>
        match prev with
        | none => run f w (.mapStep t [] inner)
        | some p =>
          andThen (run f w (.build p)) fun w₁ r =>
            match r with
            | ⟨_, some e⟩ => (.ok ⟨[.nilv], some e⟩, w₁)
            | ⟨vs, none⟩ => run f w₁ (.mapStep t (entriesOf (vs.headD .nilv)) inner)
      | .convert target inner =>
        andThen (run f w (.build inner)) fun w₁ r =>
          match r with
          | ⟨_, some e⟩ => (.ok ⟨[.nilv], some e⟩, w₁)
          | ⟨vs, none⟩ => (.ok ⟨[convertVal (vs.headD .nilv) target], none⟩, w₁)
      | .aggSlice t parts =>
        andThen (run f w (.each parts)) fun w₁ r =>
          match r with
          | ⟨_, some e⟩ => (.ok ⟨[.nilv], some e⟩, w₁)
          | ⟨vs, none⟩ =>
            (.ok ⟨[.vslice (tyElem t) ((vs.map elemsOf).flatten)], none⟩, w₁)
      | .aggMap t parts =>
        andThen (run f w (.each parts)) fun w₁ r =>
          match r with
          | ⟨_, some e⟩ => (.ok ⟨[.nilv], some e⟩, w₁)
          | ⟨vs, none⟩ =>
            (.ok ⟨[.vmap (tyKey t) (tyElem t)
              (vs.foldl (fun acc v => mapOverlay acc (entriesOf v)) [])], none⟩, w₁)
    | .get i t =>
      match resolve w f i (tyUnwrap t) with
      | .error e => (.ok ⟨[.nilv], some e⟩, w)
      | .ok b =>
        if b.Provides ∈ (w.injAt i).stack then
          (.ok ⟨[.nilv], some .recursiveBinding⟩, w)
        else
          andThen (run f
              (w.setInj i { w.injAt i with stack := b.Provides :: (w.injAt i).stack })
              (.build b.Build)) fun w₁ r =>
            (.ok r, w₁.setInj i
              { w₁.injAt i with stack := (w₁.injAt i).stack.erase b.Provides })
    | .call i pid =>
      andThen (run f w (.args i (w.provs.getD pid default).args 1)) fun w₁ r =>
        match r with
        | ⟨_, some e⟩ => (.ok ⟨[], some e⟩, w₁)
        | ⟨vs, none⟩ =>
          match (w.provs.getD pid default).impl vs with
          | (_, some e) => (.ok ⟨[], some e⟩, w₁.pushLog pid)
          | (v, none) => (.ok ⟨[v], none⟩, w₁.pushLog pid)
    | .args i ts pos =>
      match ts with
      | [] => (.ok ⟨[], none⟩, w)
      | t :: rest =>
        andThen (run f w (.get i t)) fun w₁ r =>
          match r with
          | ⟨_, some e⟩ => (.ok ⟨[], some (.argErr pos e)⟩, w₁)
          | ⟨vs, none⟩ =>
            andThen (run f w₁ (.args i rest (pos + 1))) fun w₂ r₂ =>
              match r₂ with
              | ⟨_, some e⟩ => (.ok ⟨[], some e⟩, w₂)
              | ⟨vs', none⟩ => (.ok ⟨(vs.headD .nilv) :: vs', none⟩, w₂)
    | .each fns =>
      match fns with
      | [] => (.ok ⟨[], none⟩, w)
      | fn :: rest =>
        andThen (run f w (.build fn)) fun w₁ r =>
          match r with
          | ⟨_, some e⟩ => (.ok ⟨[], some e⟩, w₁)
          | ⟨vs, none⟩ =>
            andThen (run f w₁ (.each rest)) fun w₂ r₂ =>
              match r₂ with
              | ⟨_, some e⟩ => (.ok ⟨[], some e⟩, w₂)
              | ⟨vs', none⟩ => (.ok ⟨(vs.headD .nilv) :: vs', none⟩, w₂)
    | .seqStep t acc inner =>
      andThen (run f w (.build inner)) fun w₁ r =>
        match r with
        | ⟨_, some e⟩ => (.ok ⟨[.nilv], some e⟩, w₁)
        | ⟨vs, none⟩ =>
          (.ok ⟨[.vslice (tyElem t) (acc ++ elemsOf (vs.headD .nilv))], none⟩, w₁)
    | .mapStep t acc inner =>
      andThen (run f w (.build inner)) fun w₁ r =>
        match r with
        | ⟨_, some e⟩ => (.ok ⟨[.nilv], some e⟩, w₁)
        | ⟨vs, none⟩ =>
          (.ok ⟨[.vmap (tyKey t) (tyElem t)
            (mapOverlay acc (entriesOf (vs.headD .nilv)))], none⟩, w₁)

/-- The values `Bind` accepts: a plain non-function value, a plain
function (by provider-table index), or one of the five annotation
constructors `Literal`, `Provider`, `Singleton`, `Sequence`, `Mapping`
(the latter three wrapping an arbitrary such value, as in the source). -/
inductive Bindable where
  | value (v : Val)
  | fn (pid : Nat)
  | Literal (v : Val)
  | Provider (pid : Nat)
  | Singleton (inner : Bindable)
  | Sequence (inner : Bindable)
  | Mapping (inner : Bindable)
deriving DecidableEq, Repr

/-- `Annotate`: a function becomes `Provider`, an annotation passes
through, anything else becomes `Literal`. -/
def annotate : Bindable → Bindable
  | .value v => .Literal v
  | .fn pid => .Provider pid
  | a => a

/-- `a.Is(&providerType{})`. `literalAnnotation.Is` and
`mappingType.Is` do not recurse; `singletonType.Is` and
`sequenceType.Is` recurse through `Annotate(s.v)` (whose normalization
the `.value`/`.fn` cases absorb). -/
def isProviderAnn : Bindable → Bool
  | .value _ => false
  | .fn _ => true
  | .Literal _ => false
  | .Provider _ => true
  | .Singleton x => isProviderAnn x
  | .Sequence x => isProviderAnn x
  | .Mapping _ => false

/-- `a.Is(&sequenceType{})`, with the same recursion structure. -/
def isSequenceAnn : Bindable → Bool
  | .Singleton x => isSequenceAnn x
  | .Sequence _ => true
  | _ => false

/-- `a.Is(&mappingType{})`, with the same recursion structure. -/
def isMappingAnn : Bindable → Bool
  | .Singleton x => isMappingAnn x
  | .Sequence x => isMappingAnn x
  | .Mapping _ => true
  | _ => false

/-- Modelled from the spec's words for C4: does the normalized annotation
chain contain a `Sequence` or `Mapping` node (recursing through every
wrapper). Compared against the source's `Is`-based test in the theorems. -/
def chainHasSeqOrMap : Bindable → Bool
  | .Sequence _ => true
  | .Mapping _ => true
  | .Singleton x => chainHasSeqOrMap x
  | _ => false

/-- `Annotation.Build` for each annotation kind, against injector `i`
(which the provider closures capture). Allocates a fresh cell per
`Singleton`; captures the previously registered binding of the same
provides-type for `Sequence`/`Mapping`. The cases for `.value`/`.fn`
equal the cases for their `Annotate`-normal forms (`annBuild_annotate`
below records this). -/
def annBuild (w : World) (i : Nat) : Bindable → Except Err Binding × World
  | .value v => (.ok ⟨v.typeOf, [], .lit v⟩, w)
  | .Literal v => (.ok ⟨v.typeOf, [], .lit v⟩, w)
  | .fn pid =>
    let spec := w.provs.getD pid default
    (.ok ⟨spec.ret, spec.args, .provider i pid⟩, w)
  | .Provider pid =>
    let spec := w.provs.getD pid default
    (.ok ⟨spec.ret, spec.args, .provider i pid⟩, w)
  | .Singleton x =>
    if isProviderAnn x then
      match annBuild w i x with
      | (.ok b, w₁) =>
        (.ok ⟨b.Provides, b.Requires, .singleton w₁.cells.length b.Build⟩,
          { w₁ with cells := w₁.cells ++ [{}] })
      | (.error e, w₁) => (.error e, w₁)
    else (.error .onlyProviders, w)
  | .Sequence x =>
    match annBuild w i x with
    | (.error e, w₁) => (.error e, w₁)
    | (.ok b, w₁) =>
      match b.Provides with
      | .slice _ =>
        let prev := lookupB (w₁.injAt i).bindings b.Provides
        (.ok ⟨b.Provides, b.Requires, .seqChain b.Provides (prev.map Binding.Build) b.Build⟩, w₁)
      | _ => (.error (.notSlice b.Provides), w₁)
  | .Mapping x =>
    match annBuild w i x with
    | (.error e, w₁) => (.error e, w₁)
    | (.ok b, w₁) =>
      match b.Provides with
      | .tmap _ _ =>
        let prev := lookupB (w₁.injAt i).bindings b.Provides
        (.ok ⟨b.Provides, b.Requires, .mapChain b.Provides (prev.map Binding.Build) b.Build⟩, w₁)
      | _ => (.error (.notMap b.Provides), w₁)

/-- `SafeInjector.Bind` for one value: build the annotation against the
current state, reject a duplicate provides-type unless the annotation
`Is` a `Sequence` or `Mapping`, else insert and append to the order
ledger. -/
def bindOne (w : World) (i : Nat) (v : Bindable) : Option Err × World :=
  match annBuild w i v with
  | (.error e, w₁) => (some e, w₁)
  | (.ok b, w₁) =>
    let s := w₁.injAt i
    if (lookupB s.bindings b.Provides).isSome
        && !(isSequenceAnn (annotate v) || isMappingAnn (annotate v)) then
      (some (.alreadyBound b.Provides), w₁)
    else
      (none, w₁.setInj i
        { s with bindings := insertB s.bindings b.Provides b
                 bindingOrder := s.bindingOrder ++ [b.Provides] })

/-- `SafeInjector.BindTo`: build the implementation's binding, check the
duplicate against the raw `asTy` key, then either store the binding
under the unwrapped interface (pointer-to-interface mode, checking
`Implements`) or store a converting wrapper under `asTy` itself
(conversion mode, checking `ConvertibleTo`). -/
def bindTo (w : World) (i : Nat) (asTy : Ty) (impl : Bindable) : Option Err × World :=
  match annBuild w i impl with
  | (.error e, w₁) => (some e, w₁)
  | (.ok b, w₁) =>
    let s := w₁.injAt i
    if (lookupB s.bindings asTy).isSome then (some (.alreadyBound asTy), w₁)
    else
      match asTy with
      | .ptr (.iface m) =>
        if implementsB b.Provides (.iface m) then
          (none, w₁.setInj i
            { s with bindings := insertB s.bindings (.iface m) b
                     bindingOrder := s.bindingOrder ++ [Ty.iface m] })
        else (some (.notImplements b.Provides (.iface m)), w₁)
      | _ =>
        if convertibleTo b.Provides asTy then
          (none, w₁.setInj i
            { s with bindings := insertB s.bindings asTy
                       ⟨b.Provides, b.Requires, .convert asTy b.Build⟩
                     bindingOrder := s.bindingOrder ++ [asTy] })
        else (some (.notConvertible b.Provides asTy), w₁)

/-- `SafeNew`: a fresh injector with itself bound and its binder
capability bound under the binder interface (both results discarded, as
in the source). -/
def safeNew (w : World) : Nat × World :=
  let i := w.injectors.length
  let w₁ := { w with injectors := w.injectors ++ [{}] }
  let w₂ := (bindOne w₁ i (.value (.inj i))).2
  let w₃ := (bindTo w₂ i (.ptr binderIfaceTy) (.value (.inj i))).2
  (i, w₃)

/-- `SafeInjector.Child`: a fresh injector whose parent is `p`. -/
def childOf (w : World) (p : Nat) : Nat × World :=
  let r := safeNew w
  (r.1, r.2.setInj r.1 { r.2.injAt r.1 with parent := some p })

/-- Is every type of the list resolvable (the body of `Validate`'s
loops)? Go returns the first failure's error; the claims only concern
the verdict, which we model directly. -/
def resolvableList (w : World) (fuel i : Nat) : List Ty → Bool
  | [] => true
  | t :: ts => (resolve w fuel i t).isOk && resolvableList w fuel i ts

/-- `Validate`'s first loop: every table binding's `Requires` resolve. -/
def bindingsOk (w : World) (fuel i : Nat) : List (Ty × Binding) → Bool
  | [] => true
  | (_, b) :: rest => resolvableList w fuel i b.Requires && bindingsOk w fuel i rest

/-- `SafeInjector.Validate` on the function `provs[pid]` (every modelled
callable is a function, so the source's kind check passes): every
binding of the own table has resolvable `Requires`, and every parameter
type of the function resolves. -/
def validateOk (w : World) (fuel i pid : Nat) : Bool :=
  bindingsOk w fuel i (w.injAt i).bindings &&
    resolvableList w fuel i (w.provs.getD pid default).args

/-- The operations a client performs between which the singleton claims
quantify: `Get` of a type, or `Call` of a function, on an injector. -/
inductive Op where
  | get (i : Nat) (t : Ty)
  | call (i : Nat) (pid : Nat)

/-- The task an operation runs. -/
def taskOfOp : Op → Task
  | .get i t => .get i t
  | .call i pid => .call i pid

/-- Run a sequence of operations, threading the world. A hang (deadlock)
stops the sequence: nothing ever runs after it. -/
def runOps (fuel : Nat) (w : World) : List Op → World
  | [] => w
  | op :: ops =>
    match run fuel w (taskOfOp op) with
    | (.hang, w₁) => w₁
    | (.ok _, w₁) => runOps fuel w₁ ops

/-- A primitive world mutation the evaluator performs: replacing one
injector's in-construction stack, writing one singleton cell, or
appending to the invocation log. Binding tables, the order ledgers,
parent pointers and the provider table are untouched by all three. -/
def Step (w w' : World) : Prop :=
  (∃ i st, w' = w.setInj i { w.injAt i with stack := st }) ∨
  (∃ c v, w' = w.setCell c v) ∨
  (∃ pid, w' = w.pushLog pid)

/-- Reachability by evaluator mutations. -/
def Reach : World → World → Prop := Relation.ReflTransGen Step

/-- Types whose resolution can neither scan interfaces nor synthesize an
aggregate nor unwrap: resolution is exact hit or parent delegation. -/
def plainTy : Ty → Bool
  | .iface _ => false
  | .slice (.iface _) => false
  | .tmap _ (.iface _) => false
  | .ptr (.iface _) => false
  | _ => true

/-- Every occurrence of provider `pid` in this build tree sits directly
under a `singleton` node of cell `cid` (so the cell's memoization guards
every path to the provider's function). -/
def GuardedB (pid cid : Nat) : BuildFn → Prop
  | .lit _ => True
  | .provider _ q => q ≠ pid
  | .singleton c' inner => (c' = cid ∧ ∃ j, inner = .provider j pid) ∨ GuardedB pid cid inner
  | .seqChain _ none inner => GuardedB pid cid inner
  | .seqChain _ (some p) inner => GuardedB pid cid p ∧ GuardedB pid cid inner
  | .mapChain _ none inner => GuardedB pid cid inner
  | .mapChain _ (some p) inner => GuardedB pid cid p ∧ GuardedB pid cid inner
  | .convert _ inner => GuardedB pid cid inner
  | .aggSlice _ parts => ∀ p ∈ parts, GuardedB pid cid p
  | .aggMap _ parts => ∀ p ∈ parts, GuardedB pid cid p

/-- Every binding of every injector's table is guarded. -/
def GuardedW (pid cid : Nat) (w : World) : Prop :=
  ∀ i p, p ∈ (w.injAt i).bindings → GuardedB pid cid (Binding.Build p.2)

/-- The task does not reach provider `pid` outside the singleton. -/
def GuardedT (pid cid : Nat) : Task → Prop
  | .build fn => GuardedB pid cid fn
  | .get _ _ => True
  | .call _ q => q ≠ pid
  | .args _ _ _ => True
  | .each fns => ∀ fn ∈ fns, GuardedB pid cid fn
  | .seqStep _ _ inner => GuardedB pid cid inner
  | .mapStep _ _ inner => GuardedB pid cid inner

/-- An operation sequence that never calls provider `pid` directly. -/
def GuardedOps (pid : Nat) (ops : List Op) : Prop :=
  ∀ op ∈ ops, ∀ i q, op = Op.call i q → q ≠ pid

/-- The singleton-cell bookkeeping any guarded evaluation guarantees
for cell `cid` and provider `pid`: a cached cell stays cached with the
same value and no further `pid` invocation; a locked cell is completely
frozen; the invocation count grows only on an uncached-to-cached
transition, by at most one. -/
def CellSteady (pid cid : Nat) (w w' : World) : Prop :=
  ((w.cellAt cid).isCached = true →
    (w'.cellAt cid).isCached = true ∧ (w'.cellAt cid).cached = (w.cellAt cid).cached ∧
    w'.log.count pid = w.log.count pid) ∧
  ((w.cellAt cid).locked = true →
    w'.cellAt cid = w.cellAt cid ∧ w'.log.count pid = w.log.count pid) ∧
  (w'.log.count pid ≤ w.log.count pid +
    (if (w.cellAt cid).isCached = false ∧ (w'.cellAt cid).isCached = true then 1 else 0))

/-- `CellSteady` plus: an unlocked cell is unlocked again on any
non-hanging exit. -/
def CellBundle (pid cid : Nat) (w w' : World) (o : Outcome) : Prop :=
  CellSteady pid cid w w' ∧
  ((w.cellAt cid).locked = false → o ≠ .hang → (w'.cellAt cid).locked = false)

/-! Concrete scenario worlds used by the counterexamples and witnesses.
Named base types play Go named types: `base 0` is `int`. -/

/-- An empty world with the given provider table. -/
def mkWorld (ps : List FnSpec) : World := ⟨[], [], ps, []⟩

/-- Provider table for the Sequence-merge scenario: provider 0 takes no
arguments and returns the slice `[3] : []int`. -/
def seqProvs : List FnSpec :=
  [⟨[], .slice (.base 0), fun _ => (.vslice (.base 0) [(.base 0, 3)], none)⟩]

/-- The Sequence scenario: a fresh injector, then
`Bind(Sequence([1]))`, `Bind(Sequence([2]))`,
`Bind(Sequence(Singleton(provider returning [3])))`. -/
def seqWorld : World :=
  let w := (safeNew (mkWorld seqProvs)).2
  let w := (bindOne w 0 (.Sequence (.value (.vslice (.base 0) [(.base 0, 1)])))).2
  let w := (bindOne w 0 (.Sequence (.value (.vslice (.base 0) [(.base 0, 2)])))).2
  (bindOne w 0 (.Sequence (.Singleton (.fn 0)))).2

/-- Provider table for the cycle scenario: provider 1 produces type
`base 1` from `base 2`, provider 2 produces `base 2` from `base 1`. -/
def cycProvs : List FnSpec :=
  [default,
   ⟨[.base 2], .base 1, fun _ => (.prim (.base 1) 0, none)⟩,
   ⟨[.base 1], .base 2, fun _ => (.prim (.base 2) 0, none)⟩]

/-- The cycle scenario: both providers bound on a fresh injector. -/
def cycWorld : World :=
  let w := (safeNew (mkWorld cycProvs)).2
  let w := (bindOne w 0 (.fn 1)).2
  (bindOne w 0 (.fn 2)).2

/-- Provider table for the Validate scenario: provider 1 produces
`base 4` from the never-bound `base 5`; provider 3 is a zero-argument
function (the `Call`/`Validate` target). -/
def valProvs : List FnSpec :=
  [default,
   ⟨[.base 5], .base 4, fun _ => (.prim (.base 4) 0, none)⟩,
   default,
   ⟨[], .base 6, fun _ => (.prim (.base 6) 7, none)⟩]

/-- The Validate scenario: provider 1 bound on a fresh injector. -/
def valWorld : World := (bindOne (safeNew (mkWorld valProvs)).2 0 (.fn 1)).2

/-- A fresh injector over an empty provider table. -/
def freshWorld : World := (safeNew (mkWorld [])).2

/-- Provider table for the failing-singleton scenario: provider 4
requires the never-bound `base 50` and would return a `base 7` value. -/
def failProvs : List FnSpec :=
  [default, default, default, default,
   ⟨[.base 50], .base 7, fun _ => (.prim (.base 7) 1, none)⟩]

/-- The failing-singleton scenario: `Bind(Singleton(provider 4))` on a
fresh injector. -/
def failWorld : World := (bindOne (safeNew (mkWorld failProvs)).2 0 (.Singleton (.fn 4))).2

/-- Provider table for the erroring-singleton scenario: provider 6 takes
no arguments and returns a non-nil error. -/
def errProvs : List FnSpec :=
  [default, default, default, default, default, default,
   ⟨[], .base 9, fun _ => (.nilv, some (.userErr 3))⟩]

/-- The erroring-singleton scenario: `Bind(Singleton(provider 6))` on a
fresh injector. -/
def errWorld : World := (bindOne (safeNew (mkWorld errProvs)).2 0 (.Singleton (.fn 6))).2

/-- Provider table for the working-singleton scenario: provider 5 takes
no arguments and returns `prim (base 8) 9`. -/
def okProvs : List FnSpec :=
  [default, default, default, default, default,
   ⟨[], .base 8, fun _ => (.prim (.base 8) 9, none)⟩]

/-- The working-singleton scenario: `Bind(Singleton(provider 5))` on a
fresh injector. -/
def okWorld : World := (bindOne (safeNew (mkWorld okProvs)).2 0 (.Singleton (.fn 5))).2

/-- The erroring-singleton scenario after the first (failing) `Get`. -/
def errWorld2 : World := (run 20 errWorld (.get 0 (.base 9))).2

/-- The working-singleton scenario after the first (successful) `Get`. -/
def okWorld2 : World := (run 20 okWorld (.get 0 (.base 8))).2

/-- A parent with a literal `prim (base 20) 5` bound, and its child. -/
def childWorld : World :=
  let w := (bindOne freshWorld 0 (.value (.prim (.base 20) 5))).2
  (childOf w 0).2

/-- The parent-and-child world with an interface binding additionally
installed on the parent via `BindTo` (a `base 1` value stored under
interface 1, which `base 1` implements). -/
def childIfaceWorld : World :=
  (bindTo childWorld 0 (.ptr (.iface 1)) (.value (.prim (.base 1) 77))).2

/-- The cycle scenario with the int type pre-marked in construction (the
state `getReflected` sees when the cycle closes). -/
def cycStacked : World := cycWorld.setInj 0 { cycWorld.injAt 0 with stack := [Ty.base 1] }

/-- A fresh injector with a pointer-to-interface literal bound. -/
def ptrWorld : World := (bindOne freshWorld 0 (.value (.prim (.ptr (.iface 1)) 42))).2

/-- A fresh injector with a `base 40` literal bound (duplicate-bind
scenario). -/
def dupWorld : World := (bindOne freshWorld 0 (.value (.prim (.base 40) 1))).2

/-- Everything the evaluator never mutates: number of injectors, every
injector's parent pointer, binding table and order ledger, the provider
table and the number of cells. -/
def SameTables (w w' : World) : Prop :=
  w'.injectors.length = w.injectors.length ∧
  w'.provs = w.provs ∧
  w'.cells.length = w.cells.length ∧
  ∀ j, (w'.injAt j).parent = (w.injAt j).parent ∧
    (w'.injAt j).bindings = (w.injAt j).bindings ∧
    (w'.injAt j).bindingOrder = (w.injAt j).bindingOrder

end Inject

namespace Inject

/-! ### Accessor lemmas -/

theorem injAt_setInj_self (w : World) (i : Nat) (s : InjState)
    (h : i < w.injectors.length) : (w.setInj i s).injAt i = s := by
  simp [World.setInj, World.injAt, List.getD_eq_getElem?_getD, List.getElem?_set_self, h]

theorem injAt_setInj_ne (w : World) (i j : Nat) (s : InjState) (h : i ≠ j) :
    (w.setInj i s).injAt j = w.injAt j := by
  simp [World.setInj, World.injAt, List.getD_eq_getElem?_getD, List.getElem?_set_ne h]

theorem setInj_oor (w : World) (i : Nat) (s : InjState)
    (h : w.injectors.length ≤ i) : w.setInj i s = w := by
  simp [World.setInj, List.set_eq_of_length_le h]

theorem cellAt_setCell_self (w : World) (c : Nat) (v : Cell)
    (h : c < w.cells.length) : (w.setCell c v).cellAt c = v := by
  simp [World.setCell, World.cellAt, List.getD_eq_getElem?_getD, List.getElem?_set_self, h]

theorem cellAt_setCell_ne (w : World) (c d : Nat) (v : Cell) (h : c ≠ d) :
    (w.setCell c v).cellAt d = w.cellAt d := by
  simp [World.setCell, World.cellAt, List.getD_eq_getElem?_getD, List.getElem?_set_ne h]

theorem setCell_oor (w : World) (c : Nat) (v : Cell)
    (h : w.cells.length ≤ c) : w.setCell c v = w := by
  simp [World.setCell, List.set_eq_of_length_le h]

@[simp] theorem injAt_setCell (w : World) (c : Nat) (v : Cell) (j : Nat) :
    (w.setCell c v).injAt j = w.injAt j := rfl

@[simp] theorem injAt_pushLog (w : World) (p j : Nat) :
    (w.pushLog p).injAt j = w.injAt j := rfl

@[simp] theorem cellAt_setInj (w : World) (i : Nat) (s : InjState) (c : Nat) :
    (w.setInj i s).cellAt c = w.cellAt c := rfl

@[simp] theorem cellAt_pushLog (w : World) (p c : Nat) :
    (w.pushLog p).cellAt c = w.cellAt c := rfl

@[simp] theorem log_setInj (w : World) (i : Nat) (s : InjState) :
    (w.setInj i s).log = w.log := rfl

@[simp] theorem log_setCell (w : World) (c : Nat) (v : Cell) :
    (w.setCell c v).log = w.log := rfl

@[simp] theorem log_pushLog (w : World) (p : Nat) :
    (w.pushLog p).log = w.log ++ [p] := rfl

@[simp] theorem provs_setInj (w : World) (i : Nat) (s : InjState) :
    (w.setInj i s).provs = w.provs := rfl

@[simp] theorem provs_setCell (w : World) (c : Nat) (v : Cell) :
    (w.setCell c v).provs = w.provs := rfl

@[simp] theorem provs_pushLog (w : World) (p : Nat) :
    (w.pushLog p).provs = w.provs := rfl

@[simp] theorem injectors_length_setInj (w : World) (i : Nat) (s : InjState) :
    (w.setInj i s).injectors.length = w.injectors.length := by
  simp [World.setInj]

@[simp] theorem cells_length_setCell (w : World) (c : Nat) (v : Cell) :
    (w.setCell c v).cells.length = w.cells.length := by
  simp [World.setCell]

@[simp] theorem cells_setInj (w : World) (i : Nat) (s : InjState) :
    (w.setInj i s).cells = w.cells := rfl

@[simp] theorem cells_pushLog (w : World) (p : Nat) :
    (w.pushLog p).cells = w.cells := rfl

@[simp] theorem injectors_setCell (w : World) (c : Nat) (v : Cell) :
    (w.setCell c v).injectors = w.injectors := rfl

@[simp] theorem injectors_pushLog (w : World) (p : Nat) :
    (w.pushLog p).injectors = w.injectors := rfl

/-- Setting an injector's stack only (the only table-state shape the
evaluator ever writes) leaves every injector's parent, bindings and
order unchanged. -/
theorem injAt_setStack (w : World) (i : Nat) (st : List Ty) (j : Nat) :
    ((w.setInj i { w.injAt i with stack := st }).injAt j).parent = (w.injAt j).parent ∧
    ((w.setInj i { w.injAt i with stack := st }).injAt j).bindings = (w.injAt j).bindings ∧
    ((w.setInj i { w.injAt i with stack := st }).injAt j).bindingOrder =
      (w.injAt j).bindingOrder := by
  by_cases hr : i < w.injectors.length
  · by_cases hj : j = i
    · subst hj; rw [injAt_setInj_self w j _ hr]; exact ⟨rfl, rfl, rfl⟩
    · rw [injAt_setInj_ne w i j _ (fun h => hj h.symm)]; exact ⟨rfl, rfl, rfl⟩
  · rw [setInj_oor w i _ (Nat.le_of_not_lt hr)]; exact ⟨rfl, rfl, rfl⟩

/-! ### Reachability: the evaluator only performs `Step` mutations -/

theorem Reach.refl (w : World) : Reach w w := Relation.ReflTransGen.refl

theorem Reach.trans {w₁ w₂ w₃ : World} (h₁ : Reach w₁ w₂) (h₂ : Reach w₂ w₃) :
    Reach w₁ w₃ := Relation.ReflTransGen.trans h₁ h₂

theorem Reach.stepStack (w : World) (i : Nat) (st : List Ty) :
    Reach w (w.setInj i { w.injAt i with stack := st }) :=
  Relation.ReflTransGen.single (Or.inl ⟨i, st, rfl⟩)

theorem Reach.stepCell (w : World) (c : Nat) (v : Cell) :
    Reach w (w.setCell c v) :=
  Relation.ReflTransGen.single (Or.inr (Or.inl ⟨c, v, rfl⟩))

theorem Reach.stepLog (w : World) (p : Nat) : Reach w (w.pushLog p) :=
  Relation.ReflTransGen.single (Or.inr (Or.inr ⟨p, rfl⟩))

/-- Sequencing preserves reachability. -/
theorem reach_andThen {w : World} {r : Outcome × World}
    {k : World → Ret → Outcome × World} (h₁ : Reach w r.2)
    (h₂ : ∀ w₁ ret, r = (.ok ret, w₁) → Reach w₁ (k w₁ ret).2) :
    Reach w (andThen r k).2 := by
  rcases r with ⟨o, w₁⟩
  rcases o with ret | _
  · exact Reach.trans h₁ (h₂ w₁ ret rfl)
  · exact h₁

/-- The evaluator's final world is reachable from the initial one by
primitive mutations alone. -/
theorem run_reach (f : Nat) : ∀ (w : World) (tk : Task), Reach w (run f w tk).2 := by
  induction f with
  | zero => intro w tk; exact Reach.refl w
  | succ f ih =>
    intro w tk
    match tk with
    | .build fn =>
      match fn with
      | .lit v => exact Reach.refl w
      | .provider j pid =>
        refine reach_andThen (ih w (.call j pid)) fun w₁ ret _ => ?_
        rcases ret with ⟨vs, _ | e⟩ <;> exact Reach.refl w₁
      | .singleton cid inner =>
        simp only [run]
        by_cases hc : (w.cellAt cid).locked
        · rw [if_pos hc]; exact Reach.refl w
        · rw [if_neg hc]
          by_cases hk : (w.cellAt cid).isCached
          · rw [if_pos hk]; exact Reach.refl w
          · rw [if_neg hk]
            refine Reach.trans (Reach.stepCell w cid ⟨true, false, (w.cellAt cid).cached⟩)
              (reach_andThen (ih _ (.build inner)) fun w₁ ret _ => ?_)
            exact Reach.stepCell w₁ cid _
      | .seqChain t prev inner =>
        rcases prev with _ | p
        · exact ih w (.seqStep t [] inner)
        · refine reach_andThen (ih w (.build p)) fun w₁ ret _ => ?_
          rcases ret with ⟨vs, _ | e⟩
          · exact ih w₁ (.seqStep t (elemsOf (vs.headD .nilv)) inner)
          · exact Reach.refl w₁
      | .mapChain t prev inner =>
        rcases prev with _ | p
        · exact ih w (.mapStep t [] inner)
        · refine reach_andThen (ih w (.build p)) fun w₁ ret _ => ?_
          rcases ret with ⟨vs, _ | e⟩
          · exact ih w₁ (.mapStep t (entriesOf (vs.headD .nilv)) inner)
          · exact Reach.refl w₁
      | .convert target inner =>
        refine reach_andThen (ih w (.build inner)) fun w₁ ret _ => ?_
        rcases ret with ⟨vs, _ | e⟩ <;> exact Reach.refl w₁
      | .aggSlice t parts =>
        refine reach_andThen (ih w (.each parts)) fun w₁ ret _ => ?_
        rcases ret with ⟨vs, _ | e⟩ <;> exact Reach.refl w₁
      | .aggMap t parts =>
        refine reach_andThen (ih w (.each parts)) fun w₁ ret _ => ?_
        rcases ret with ⟨vs, _ | e⟩ <;> exact Reach.refl w₁
    | .get i t =>
      simp only [run]
      split
      · exact Reach.refl w
      · split
        · exact Reach.refl w
        · rename_i b heq hst
          refine Reach.trans (Reach.stepStack w i (b.Provides :: (w.injAt i).stack))
            (reach_andThen (ih _ (.build b.Build)) fun w₁ ret _ => ?_)
          exact Reach.stepStack w₁ i _
    | .call i pid =>
      refine reach_andThen (ih w (.args i (w.provs.getD pid default).args 1))
        fun w₁ ret _ => ?_
      rcases ret with ⟨vs, _ | e⟩
      · rcases hv : (w.provs.getD pid default).impl vs with ⟨v, _ | ev⟩ <;>
          simp only [hv] <;> exact Reach.stepLog w₁ pid
      · exact Reach.refl w₁
    | .args i ts pos =>
      rcases ts with _ | ⟨t, rest⟩
      · exact Reach.refl w
      · refine reach_andThen (ih w (.get i t)) fun w₁ ret _ => ?_
        rcases ret with ⟨vs, _ | e⟩
        · refine reach_andThen (ih w₁ (.args i rest (pos + 1))) fun w₂ ret₂ _ => ?_
          rcases ret₂ with ⟨vs₂, _ | e₂⟩ <;> exact Reach.refl w₂
        · exact Reach.refl w₁
    | .each fns =>
      rcases fns with _ | ⟨fn, rest⟩
      · exact Reach.refl w
      · refine reach_andThen (ih w (.build fn)) fun w₁ ret _ => ?_
        rcases ret with ⟨vs, _ | e⟩
        · refine reach_andThen (ih w₁ (.each rest)) fun w₂ ret₂ _ => ?_
          rcases ret₂ with ⟨vs₂, _ | e₂⟩ <;> exact Reach.refl w₂
        · exact Reach.refl w₁
    | .seqStep t acc inner =>
      refine reach_andThen (ih w (.build inner)) fun w₁ ret _ => ?_
      rcases ret with ⟨vs, _ | e⟩ <;> exact Reach.refl w₁
    | .mapStep t acc inner =>
      refine reach_andThen (ih w (.build inner)) fun w₁ ret _ => ?_
      rcases ret with ⟨vs, _ | e⟩ <;> exact Reach.refl w₁

/-- A primitive step changes no table data. -/
theorem step_sameTables {w w' : World} (h : Step w w') : SameTables w w' := by
  rcases h with ⟨i, st, rfl⟩ | ⟨c, v, rfl⟩ | ⟨p, rfl⟩
  · exact ⟨by simp, rfl, by simp, fun j => injAt_setStack w i st j⟩
  · exact ⟨rfl, rfl, by simp, fun j => ⟨rfl, rfl, rfl⟩⟩
  · exact ⟨rfl, rfl, rfl, fun j => ⟨rfl, rfl, rfl⟩⟩

theorem sameTables_refl (w : World) : SameTables w w :=
  ⟨rfl, rfl, rfl, fun _ => ⟨rfl, rfl, rfl⟩⟩

theorem sameTables_trans {w₁ w₂ w₃ : World}
    (h₁ : SameTables w₁ w₂) (h₂ : SameTables w₂ w₃) : SameTables w₁ w₃ := by
  refine ⟨h₂.1.trans h₁.1, h₂.2.1.trans h₁.2.1, h₂.2.2.1.trans h₁.2.2.1, fun j => ?_⟩
  obtain ⟨a₁, b₁, c₁⟩ := h₁.2.2.2 j
  obtain ⟨a₂, b₂, c₂⟩ := h₂.2.2.2 j
  exact ⟨a₂.trans a₁, b₂.trans b₁, c₂.trans c₁⟩

theorem reach_sameTables {w w' : World} (h : Reach w w') : SameTables w w' := by
  induction h with
  | refl => exact sameTables_refl w
  | tail _ hs ih => exact sameTables_trans ih (step_sameTables hs)

/-- The evaluator changes no table data. -/
theorem run_sameTables (f : Nat) (w : World) (tk : Task) :
    SameTables w (run f w tk).2 :=
  reach_sameTables (run_reach f w tk)

/-- The log only grows. -/
theorem step_log {w w' : World} (h : Step w w') : ∃ l, w'.log = w.log ++ l := by
  rcases h with ⟨i, st, rfl⟩ | ⟨c, v, rfl⟩ | ⟨p, rfl⟩
  · exact ⟨[], by simp⟩
  · exact ⟨[], by simp⟩
  · exact ⟨[p], rfl⟩

theorem reach_log {w w' : World} (h : Reach w w') : ∃ l, w'.log = w.log ++ l := by
  induction h with
  | refl => exact ⟨[], by simp⟩
  | tail _ hs ih =>
    obtain ⟨l₁, hl₁⟩ := ih
    obtain ⟨l₂, hl₂⟩ := step_log hs
    exact ⟨l₁ ++ l₂, by rw [hl₂, hl₁, List.append_assoc]⟩

theorem run_log_mono (f : Nat) (w : World) (tk : Task) (pid : Nat) :
    w.log.count pid ≤ (run f w tk).2.log.count pid := by
  obtain ⟨l, hl⟩ := reach_log (run_reach f w tk)
  rw [hl, List.count_append]
  exact Nat.le_add_right _ _

/-- Sequencing for per-injector stack restoration. -/
theorem stacks_andThen {w : World} {r₀ : Outcome × World}
    {k : World → Ret → Outcome × World} {r : Ret} {w' : World}
    (h : andThen r₀ k = (.ok r, w'))
    (h₁ : ∀ r₁ w₁, r₀ = (.ok r₁, w₁) → ∀ j, (w₁.injAt j).stack = (w.injAt j).stack)
    (h₂ : ∀ r₁ w₁, r₀ = (.ok r₁, w₁) → k w₁ r₁ = (.ok r, w') →
      ∀ j, (w'.injAt j).stack = (w₁.injAt j).stack) :
    ∀ j, (w'.injAt j).stack = (w.injAt j).stack := by
  rcases r₀ with ⟨o, w₁⟩
  rcases o with r₁ | _
  · exact fun j => (h₂ r₁ w₁ rfl h j).trans (h₁ r₁ w₁ rfl j)
  · exact absurd h (by simp [andThen])

/-- Marking a type on injector `i`'s stack, evolving by stack-preserving
steps, then erasing the mark restores every stack. -/
theorem stack_mark_unmark (w w₁ : World) (i : Nat) (t : Ty)
    (hlen : w₁.injectors.length = w.injectors.length)
    (hst : ∀ j, (w₁.injAt j).stack =
      ((w.setInj i { w.injAt i with stack := t :: (w.injAt i).stack }).injAt j).stack) :
    ∀ j, ((w₁.setInj i
        { w₁.injAt i with stack := (w₁.injAt i).stack.erase t }).injAt j).stack
      = (w.injAt j).stack := by
  intro j
  by_cases hr : i < w.injectors.length
  · have hr₁ : i < w₁.injectors.length := by rw [hlen]; exact hr
    by_cases hj : j = i
    · subst hj
      rw [injAt_setInj_self w₁ j _ hr₁]
      have hs := hst j
      rw [injAt_setInj_self w j _ hr] at hs
      simp only at hs
      simp only [hs, List.erase_cons_head]
    · rw [injAt_setInj_ne w₁ i j _ (fun h => hj h.symm)]
      have hs := hst j
      rw [injAt_setInj_ne w i j _ (fun h => hj h.symm)] at hs
      exact hs
  · have h1 : w.injectors.length ≤ i := Nat.le_of_not_lt hr
    have h2 : w₁.injectors.length ≤ i := by rw [hlen]; exact h1
    rw [setInj_oor w₁ i _ h2]
    have hs := hst j
    rw [setInj_oor w i _ h1] at hs
    exact hs

/-- A non-hanging evaluation restores every injector's in-construction
stack (`getReflected` unmarks on exit; nothing else marks). -/
theorem run_stacks (f : Nat) : ∀ (w : World) (tk : Task) (r : Ret) (w' : World),
    run f w tk = (.ok r, w') → ∀ j, (w'.injAt j).stack = (w.injAt j).stack := by
  induction f with
  | zero => intro w tk r w' h; exact absurd h (by simp [run])
  | succ f ih =>
    intro w tk r w' h
    match tk with
    | .build fn =>
      match fn with
      | .lit v =>
        simp only [run, Prod.mk.injEq] at h
        obtain ⟨-, rfl⟩ := h
        exact fun j => rfl
      | .provider j pid =>
        refine stacks_andThen h (fun r₁ w₁ hr₁ => ?_) (fun r₁ w₁ hr₁ hk => ?_)
        · exact ih w (.call j pid) r₁ w₁ hr₁
        · rcases r₁ with ⟨vs, _ | e⟩ <;>
            · simp only [Prod.mk.injEq] at hk
              obtain ⟨-, rfl⟩ := hk
              exact fun j => rfl
      | .singleton cid inner =>
        simp only [run] at h
        split at h
        · exact absurd h (by simp)
        · split at h
          · simp only [Prod.mk.injEq] at h
            obtain ⟨-, rfl⟩ := h
            exact fun j => rfl
          · refine stacks_andThen h (fun r₁ w₁ hr₁ => ?_) (fun r₁ w₁ hr₁ hk => ?_)
            · exact ih (w.setCell cid ⟨true, false, (w.cellAt cid).cached⟩)
                (.build inner) r₁ w₁ hr₁
            · simp only [Prod.mk.injEq] at hk
              obtain ⟨-, rfl⟩ := hk
              exact fun j => rfl
      | .seqChain t prev inner =>
        rcases prev with _ | p
        · exact ih w (.seqStep t [] inner) r w' h
        · refine stacks_andThen h (fun r₁ w₁ hr₁ => ?_) (fun r₁ w₁ hr₁ hk => ?_)
          · exact ih w (.build p) r₁ w₁ hr₁
          · rcases r₁ with ⟨vs, _ | e⟩
            · exact ih w₁ (.seqStep t (elemsOf (vs.headD .nilv)) inner) r w' hk
            · simp only [Prod.mk.injEq] at hk
              obtain ⟨-, rfl⟩ := hk
              exact fun j => rfl
      | .mapChain t prev inner =>
        rcases prev with _ | p
        · exact ih w (.mapStep t [] inner) r w' h
        · refine stacks_andThen h (fun r₁ w₁ hr₁ => ?_) (fun r₁ w₁ hr₁ hk => ?_)
          · exact ih w (.build p) r₁ w₁ hr₁
          · rcases r₁ with ⟨vs, _ | e⟩
            · exact ih w₁ (.mapStep t (entriesOf (vs.headD .nilv)) inner) r w' hk
            · simp only [Prod.mk.injEq] at hk
              obtain ⟨-, rfl⟩ := hk
              exact fun j => rfl
      | .convert target inner =>
        refine stacks_andThen h (fun r₁ w₁ hr₁ => ?_) (fun r₁ w₁ hr₁ hk => ?_)
        · exact ih w (.build inner) r₁ w₁ hr₁
        · rcases r₁ with ⟨vs, _ | e⟩ <;>
            · simp only [Prod.mk.injEq] at hk
              obtain ⟨-, rfl⟩ := hk
              exact fun j => rfl
      | .aggSlice t parts =>
        refine stacks_andThen h (fun r₁ w₁ hr₁ => ?_) (fun r₁ w₁ hr₁ hk => ?_)
        · exact ih w (.each parts) r₁ w₁ hr₁
        · rcases r₁ with ⟨vs, _ | e⟩ <;>
            · simp only [Prod.mk.injEq] at hk
              obtain ⟨-, rfl⟩ := hk
              exact fun j => rfl
      | .aggMap t parts =>
        refine stacks_andThen h (fun r₁ w₁ hr₁ => ?_) (fun r₁ w₁ hr₁ hk => ?_)
        · exact ih w (.each parts) r₁ w₁ hr₁
        · rcases r₁ with ⟨vs, _ | e⟩ <;>
            · simp only [Prod.mk.injEq] at hk
              obtain ⟨-, rfl⟩ := hk
              exact fun j => rfl
    | .get i t =>
      simp only [run] at h
      split at h
      · simp only [Prod.mk.injEq] at h
        obtain ⟨-, rfl⟩ := h
        exact fun j => rfl
      · rename_i b heq
        split at h
        · simp only [Prod.mk.injEq] at h
          obtain ⟨-, rfl⟩ := h
          exact fun j => rfl
        · rcases hrun : run f
              (w.setInj i { w.injAt i with stack := b.Provides :: (w.injAt i).stack })
              (.build b.Build) with ⟨o, w₁⟩
          rw [hrun] at h
          rcases o with r₁ | _
          · simp only [andThen, Prod.mk.injEq] at h
            obtain ⟨-, rfl⟩ := h
            have hlen : w₁.injectors.length = w.injectors.length := by
              have hq := (run_sameTables f
                (w.setInj i { w.injAt i with stack := b.Provides :: (w.injAt i).stack })
                (.build b.Build)).1
              rw [hrun] at hq
              simpa using hq
            have hst' := ih
              (w.setInj i { w.injAt i with stack := b.Provides :: (w.injAt i).stack })
              (.build b.Build) r₁ w₁ hrun
            exact stack_mark_unmark w w₁ i b.Provides hlen hst'
          · exact absurd h (by simp [andThen])
    | .call i pid =>
      refine stacks_andThen h (fun r₁ w₁ hr₁ => ?_) (fun r₁ w₁ hr₁ hk => ?_)
      · exact ih w (.args i (w.provs.getD pid default).args 1) r₁ w₁ hr₁
      · rcases r₁ with ⟨vs, _ | e⟩
        · rcases hv : (w.provs.getD pid default).impl vs with ⟨v, _ | ev⟩ <;>
            · simp only [hv, Prod.mk.injEq] at hk
              obtain ⟨-, rfl⟩ := hk
              exact fun j => rfl
        · simp only [Prod.mk.injEq] at hk
          obtain ⟨-, rfl⟩ := hk
          exact fun j => rfl
    | .args i ts pos =>
      rcases ts with _ | ⟨t, rest⟩
      · simp only [run, Prod.mk.injEq] at h
        obtain ⟨-, rfl⟩ := h
        exact fun j => rfl
      · refine stacks_andThen h (fun r₁ w₁ hr₁ => ?_) (fun r₁ w₁ hr₁ hk => ?_)
        · exact ih w (.get i t) r₁ w₁ hr₁
        · rcases r₁ with ⟨vs, _ | e⟩
          · refine stacks_andThen hk (fun r₂ w₂ hr₂ => ?_) (fun r₂ w₂ hr₂ hk₂ => ?_)
            · exact ih w₁ (.args i rest (pos + 1)) r₂ w₂ hr₂
            · rcases r₂ with ⟨vs₂, _ | e₂⟩ <;>
                · simp only [Prod.mk.injEq] at hk₂
                  obtain ⟨-, rfl⟩ := hk₂
                  exact fun j => rfl
          · simp only [Prod.mk.injEq] at hk
            obtain ⟨-, rfl⟩ := hk
            exact fun j => rfl
    | .each fns =>
      rcases fns with _ | ⟨fn, rest⟩
      · simp only [run, Prod.mk.injEq] at h
        obtain ⟨-, rfl⟩ := h
        exact fun j => rfl
      · refine stacks_andThen h (fun r₁ w₁ hr₁ => ?_) (fun r₁ w₁ hr₁ hk => ?_)
        · exact ih w (.build fn) r₁ w₁ hr₁
        · rcases r₁ with ⟨vs, _ | e⟩
          · refine stacks_andThen hk (fun r₂ w₂ hr₂ => ?_) (fun r₂ w₂ hr₂ hk₂ => ?_)
            · exact ih w₁ (.each rest) r₂ w₂ hr₂
            · rcases r₂ with ⟨vs₂, _ | e₂⟩ <;>
                · simp only [Prod.mk.injEq] at hk₂
                  obtain ⟨-, rfl⟩ := hk₂
                  exact fun j => rfl
          · simp only [Prod.mk.injEq] at hk
            obtain ⟨-, rfl⟩ := hk
            exact fun j => rfl
    | .seqStep t acc inner =>
      refine stacks_andThen h (fun r₁ w₁ hr₁ => ?_) (fun r₁ w₁ hr₁ hk => ?_)
      · exact ih w (.build inner) r₁ w₁ hr₁
      · rcases r₁ with ⟨vs, _ | e⟩ <;>
          · simp only [Prod.mk.injEq] at hk
            obtain ⟨-, rfl⟩ := hk
            exact fun j => rfl
    | .mapStep t acc inner =>
      refine stacks_andThen h (fun r₁ w₁ hr₁ => ?_) (fun r₁ w₁ hr₁ hk => ?_)
      · exact ih w (.build inner) r₁ w₁ hr₁
      · rcases r₁ with ⟨vs, _ | e⟩ <;>
          · simp only [Prod.mk.injEq] at hk
            obtain ⟨-, rfl⟩ := hk
            exact fun j => rfl

/-! ### Table and annotation lemmas -/

theorem lookup_insertB_self (bs : List (Ty × Binding)) (t : Ty) (b : Binding) :
    lookupB (insertB bs t b) t = some b := by
  induction bs with
  | nil => simp [insertB, lookupB]
  | cons p rest ih =>
    rcases p with ⟨t', b'⟩
    by_cases h : t' = t
    · subst h; simp [insertB, lookupB]
    · simp [insertB, lookupB, h, ih]

theorem lookup_insertB_ne (bs : List (Ty × Binding)) (t u : Ty) (b : Binding)
    (h : t ≠ u) : lookupB (insertB bs t b) u = lookupB bs u := by
  induction bs with
  | nil => simp [insertB, lookupB, h]
  | cons p rest ih =>
    rcases p with ⟨t', b'⟩
    by_cases h' : t' = t
    · subst h'; simp [insertB, lookupB, h]
    · by_cases h'' : t' = u
      · subst h''; simp [insertB, lookupB, h', ih]
      · simp [insertB, lookupB, h', h'', ih]

theorem lookupB_mem {bs : List (Ty × Binding)} {t : Ty} {b : Binding}
    (h : lookupB bs t = some b) : (t, b) ∈ bs := by
  induction bs with
  | nil => simp [lookupB] at h
  | cons p rest ih =>
    rcases p with ⟨t', b'⟩
    by_cases h' : t' = t
    · subst h'
      simp [lookupB] at h
      subst h
      exact List.mem_cons_self ..
    · simp only [lookupB, if_neg h'] at h
      exact List.mem_cons_of_mem _ (ih h)

theorem scanIface_mem {bs : List (Ty × Binding)} {t : Ty} {b : Binding}
    (h : scanIface bs t = some b) : ∃ bt, (bt, b) ∈ bs := by
  induction bs with
  | nil => simp [scanIface] at h
  | cons p rest ih =>
    rcases p with ⟨t', b'⟩
    by_cases h' : implementsB t' t = true
    · simp only [scanIface, if_pos h', Option.some.injEq] at h
      subst h
      exact ⟨t', List.mem_cons_self ..⟩
    · simp only [scanIface, if_neg h'] at h
      obtain ⟨bt, hbt⟩ := ih h
      exact ⟨bt, List.mem_cons_of_mem _ hbt⟩

theorem collectSlice_mem {s : InjState} {et : Ty} {b : Binding}
    (h : b ∈ collectSlice s et) : ∃ bt, (bt, b) ∈ s.bindings := by
  simp only [collectSlice, List.mem_filterMap] at h
  obtain ⟨bt, -, hb⟩ := h
  rcases bt with n | n | e | ⟨k, e⟩ | p <;> simp only at hb
  · exact absurd hb (by simp)
  · exact absurd hb (by simp)
  · split at hb
    · exact ⟨.slice e, lookupB_mem hb⟩
    · exact absurd hb (by simp)
  · exact absurd hb (by simp)
  · exact absurd hb (by simp)

theorem collectMap_mem {s : InjState} {k et : Ty} {b : Binding}
    (h : b ∈ collectMap s k et) : ∃ bt, (bt, b) ∈ s.bindings := by
  simp only [collectMap, List.mem_filterMap] at h
  obtain ⟨bt, -, hb⟩ := h
  rcases bt with n | n | e | ⟨k', e⟩ | p <;> simp only at hb
  · exact absurd hb (by simp)
  · exact absurd hb (by simp)
  · exact absurd hb (by simp)
  · split at hb
    · exact ⟨.tmap k' e, lookupB_mem hb⟩
    · exact absurd hb (by simp)
  · exact absurd hb (by simp)

theorem annotate_isSequence (v : Bindable) :
    isSequenceAnn (annotate v) = isSequenceAnn v := by
  cases v <;> rfl

theorem annotate_isMapping (v : Bindable) :
    isMappingAnn (annotate v) = isMappingAnn v := by
  cases v <;> rfl

theorem annotate_chain (v : Bindable) :
    chainHasSeqOrMap (annotate v) = chainHasSeqOrMap v := by
  cases v <;> rfl

/-- On every value whose annotation builds, the source's `Is`-based
Sequence-or-Mapping test agrees with the spec's "chain contains a
Sequence or Mapping node" reading. -/
theorem isSeqOrMap_eq_chain : ∀ (v : Bindable) (w : World) (i : Nat) (b : Binding)
    (w' : World), annBuild w i v = (.ok b, w') →
    (isSequenceAnn v || isMappingAnn v) = chainHasSeqOrMap v := by
  intro v
  induction v with
  | value v => intro w i b w' h; rfl
  | fn pid => intro w i b w' h; rfl
  | Literal v => intro w i b w' h; rfl
  | Provider pid => intro w i b w' h; rfl
  | Singleton x ih =>
    intro w i b w' h
    simp only [annBuild] at h
    split at h
    · rcases hx : annBuild w i x with ⟨rx, wx⟩
      rw [hx] at h
      rcases rx with e | bx
      · simp at h
      · simpa [isSequenceAnn, isMappingAnn, chainHasSeqOrMap] using ih w i bx wx hx
    · simp at h
  | Sequence x ih =>
    intro w i b w' h
    simp [isSequenceAnn, chainHasSeqOrMap]
  | Mapping x ih =>
    intro w i b w' h
    simp [isMappingAnn, chainHasSeqOrMap]

/-- Annotation building never touches the injectors, providers or log
(it only allocates singleton cells). -/
theorem annBuild_world : ∀ (v : Bindable) (w : World) (i : Nat),
    (annBuild w i v).2.injectors = w.injectors ∧
    (annBuild w i v).2.provs = w.provs ∧
    (annBuild w i v).2.log = w.log := by
  intro v
  induction v with
  | value v => intro w i; exact ⟨rfl, rfl, rfl⟩
  | fn pid => intro w i; exact ⟨rfl, rfl, rfl⟩
  | Literal v => intro w i; exact ⟨rfl, rfl, rfl⟩
  | Provider pid => intro w i; exact ⟨rfl, rfl, rfl⟩
  | Singleton x ih =>
    intro w i
    simp only [annBuild]
    split
    · rcases hx : annBuild w i x with ⟨rx, wx⟩
      have hw := ih w i
      rw [hx] at hw
      rcases rx with e | bx
      · exact hw
      · exact hw
    · exact ⟨rfl, rfl, rfl⟩
  | Sequence x ih =>
    intro w i
    have hw := ih w i
    simp only [annBuild]
    split
    · rename_i e w₁ heq
      rw [heq] at hw
      exact hw
    · rename_i b w₁ heq
      rw [heq] at hw
      split
      · exact hw
      · exact hw
  | Mapping x ih =>
    intro w i
    have hw := ih w i
    simp only [annBuild]
    split
    · rename_i e w₁ heq
      rw [heq] at hw
      exact hw
    · rename_i b w₁ heq
      rw [heq] at hw
      split
      · exact hw
      · exact hw

/-- `resolve` reads only binding tables, order ledgers and parent
pointers; worlds agreeing on those resolve identically. -/
theorem resolve_congr : ∀ (f : Nat) (w w' : World)
    (h : ∀ j, (w'.injAt j).bindings = (w.injAt j).bindings ∧
      (w'.injAt j).bindingOrder = (w.injAt j).bindingOrder ∧
      (w'.injAt j).parent = (w.injAt j).parent)
    (i : Nat) (t : Ty), resolve w' f i t = resolve w f i t := by
  intro f
  induction f with
  | zero => intro w w' h i t; rfl
  | succ f ih =>
    intro w w' h i t
    obtain ⟨hb, ho, hp⟩ := h i
    have hcs : ∀ et, collectSlice (w'.injAt i) et = collectSlice (w.injAt i) et := by
      intro et; simp only [collectSlice, hb, ho]
    have hcm : ∀ k et, collectMap (w'.injAt i) k et = collectMap (w.injAt i) k et := by
      intro k et; simp only [collectMap, hb, ho]
    have hpar : ∀ (u : Ty),
        (match (w.injAt i).parent with
          | some p => resolve w' f p u
          | none => Except.error (Err.unbound u)) =
        (match (w.injAt i).parent with
          | some p => resolve w f p u
          | none => Except.error (Err.unbound u)) := by
      intro u
      rcases (w.injAt i).parent with _ | q
      · rfl
      · exact ih w w' h q u
    simp only [resolve, hb, hp]
    rcases hl : lookupB (w.injAt i).bindings t with _ | b
    · dsimp only
      rcases t with n | n | e | ⟨k, e⟩ | p
      · exact hpar (.base n)
      · dsimp only
        rcases hs : scanIface (w.injAt i).bindings (.iface n) with _ | b
        · exact hpar (.iface n)
        · rfl
      · rcases e with n | n | e' | ⟨k', e'⟩ | p'
        · exact hpar (.slice (.base n))
        · dsimp only
          rw [mkSliceBinding, mkSliceBinding, hcs]
        · exact hpar (.slice (.slice e'))
        · exact hpar (.slice (.tmap k' e'))
        · exact hpar (.slice (.ptr p'))
      · rcases e with n | n | e' | ⟨k', e'⟩ | p'
        · exact hpar (.tmap k (.base n))
        · dsimp only
          rw [mkMapBinding, mkMapBinding, hcm]
        · exact hpar (.tmap k (.slice e'))
        · exact hpar (.tmap k (.tmap k' e'))
        · exact hpar (.tmap k (.ptr p'))
      · exact hpar (.ptr p)
    · rfl

/-! ### Resolution helper lemmas -/

theorem plain_unwrap {t : Ty} (h : plainTy t = true) : tyUnwrap t = t := by
  rcases t with n | n | e | ⟨k, e⟩ | p
  · rfl
  · rfl
  · rfl
  · rfl
  · rcases p with n | n | e | ⟨k, e⟩ | q
    · rfl
    · simp [plainTy] at h
    · rfl
    · rfl
    · rfl

/-- Resolution of a plain type with no exact hit is pure parent
delegation. -/
theorem resolve_plain (f : Nat) (w : World) (i : Nat) (t : Ty)
    (hl : lookupB (w.injAt i).bindings t = none) (hpl : plainTy t = true) :
    resolve w (f + 1) i t =
      match (w.injAt i).parent with
      | some p => resolve w f p t
      | none => .error (.unbound t) := by
  simp only [resolve, hl]
  rcases t with n | n | e | ⟨k, e⟩ | p
  · rfl
  · simp [plainTy] at hpl
  · rcases e with n | n | e' | ⟨k', e'⟩ | p'
    · rfl
    · simp [plainTy] at hpl
    · rfl
    · rfl
    · rfl
  · rcases e with n | n | e' | ⟨k', e'⟩ | p'
    · rfl
    · simp [plainTy] at hpl
    · rfl
    · rfl
    · rfl
  · rfl

/-- An exact table hit resolves to that binding. -/
theorem resolve_hit (f : Nat) (w : World) (i : Nat) (t : Ty) (b : Binding)
    (hb : lookupB (w.injAt i).bindings t = some b) :
    resolve w (f + 1) i t = .ok b := by
  simp only [resolve, hb]

/-- The synthesized slice-of-interface aggregate: no exact hit resolves
to the aggregate binding built from the own table alone. -/
theorem resolve_sliceIface (f : Nat) (w : World) (i n : Nat)
    (hl : lookupB (w.injAt i).bindings (.slice (.iface n)) = none) :
    resolve w (f + 1) i (.slice (.iface n)) =
      .ok (mkSliceBinding (w.injAt i) (.slice (.iface n)) (.iface n)) := by
  simp only [resolve, hl]

/-- The empty aggregate builds the empty slice, touching nothing. -/
theorem run_aggSlice_nil (f : Nat) (w : World) (t : Ty) :
    run (f + 2) w (.build (.aggSlice t [])) =
      (.ok ⟨[.vslice (tyElem t) []], none⟩, w) := rfl

/-- A literal build returns its value and changes nothing. -/
theorem run_lit (f : Nat) (w : World) (v : Val) :
    run (f + 1) w (.build (.lit v)) = (.ok ⟨[v], none⟩, w) := rfl

/-- One unfolding step of `getReflected` when resolution succeeds and
the recursion guard passes: mark, build, unmark. -/
theorem run_get_eq (f : Nat) (w : World) (i : Nat) (t : Ty) (b : Binding)
    (hres : resolve w f i (tyUnwrap t) = .ok b)
    (hst : b.Provides ∉ (w.injAt i).stack) :
    run (f + 1) w (.get i t) =
      andThen (run f
          (w.setInj i { w.injAt i with stack := b.Provides :: (w.injAt i).stack })
          (.build b.Build)) fun w₁ r =>
        (.ok r, w₁.setInj i
          { w₁.injAt i with stack := (w₁.injAt i).stack.erase b.Provides }) := by
  simp only [run, hres]
  rw [if_neg hst]

theorem resolvableList_iff (w : World) (fuel i : Nat) : ∀ (ts : List Ty),
    resolvableList w fuel i ts = true ↔ ∀ t ∈ ts, (resolve w fuel i t).isOk = true := by
  intro ts
  induction ts with
  | nil => simp [resolvableList]
  | cons t rest ih => simp [resolvableList, ih]

theorem bindingsOk_iff (w : World) (fuel i : Nat) : ∀ (bs : List (Ty × Binding)),
    bindingsOk w fuel i bs = true ↔
      ∀ p ∈ bs, ∀ t ∈ (Binding.Requires p.2), (resolve w fuel i t).isOk = true := by
  intro bs
  induction bs with
  | nil => simp [bindingsOk]
  | cons p rest ih =>
    rcases p with ⟨t', b⟩
    simp [bindingsOk, ih, resolvableList_iff]

theorem resolvableList_congr (w w' : World) (fuel i : Nat)
    (h : ∀ j, (w'.injAt j).bindings = (w.injAt j).bindings ∧
      (w'.injAt j).bindingOrder = (w.injAt j).bindingOrder ∧
      (w'.injAt j).parent = (w.injAt j).parent) :
    ∀ (ts : List Ty), resolvableList w' fuel i ts = resolvableList w fuel i ts := by
  intro ts
  induction ts with
  | nil => rfl
  | cons t rest ih => simp [resolvableList, ih, resolve_congr fuel w w' h]

theorem bindingsOk_congr (w w' : World) (fuel i : Nat)
    (h : ∀ j, (w'.injAt j).bindings = (w.injAt j).bindings ∧
      (w'.injAt j).bindingOrder = (w.injAt j).bindingOrder ∧
      (w'.injAt j).parent = (w.injAt j).parent) :
    ∀ (bs : List (Ty × Binding)), bindingsOk w' fuel i bs = bindingsOk w fuel i bs := by
  intro bs
  induction bs with
  | nil => rfl
  | cons p rest ih =>
    simp [bindingsOk, ih, resolvableList_congr w w' fuel i h]

/-! ### Claim theorems -/

/-- C1: if the binding resolved for a requested type has a provides-type
already in the calling injector's in-construction set, `Get` fails with
the recursive-binding error without invoking that binding's build (the
world, including the invocation log, is untouched); every non-hanging
`Get` removes the mark again, restoring every injector's in-construction
set; and in the concrete two-provider cycle (a provider of `base 1`
requiring `base 2` and vice versa), `Get` returns the recursive-binding
error wrapped in the positional-argument errors, with the world (log
included) unchanged — no infinite recursion. -/
theorem C1_cycle_detection :
    (∀ (f : Nat) (w : World) (i : Nat) (t : Ty) (b : Binding),
      resolve w f i (tyUnwrap t) = .ok b → b.Provides ∈ (w.injAt i).stack →
      run (f + 1) w (.get i t) = (.ok ⟨[.nilv], some .recursiveBinding⟩, w)) ∧
    (∀ (f : Nat) (w : World) (i : Nat) (t : Ty) (r : Ret) (w' : World),
      run f w (.get i t) = (.ok r, w') →
      ∀ j, (w'.injAt j).stack = (w.injAt j).stack) ∧
    (run 30 cycWorld (.get 0 (.base 1)) =
      (.ok ⟨[.nilv], some (.argErr 1 (.argErr 1 .recursiveBinding))⟩, cycWorld)) ∧
    cycWorld.log = [] := by
  refine ⟨?_, ?_, rfl, rfl⟩
  · intro f w i t b hres hmem
    simp only [run, hres]
    rw [if_pos hmem]
  · intro f w i t r w' h
    exact run_stacks f w (.get i t) r w' h

/-- C1 witness: in the cycle scenario with the int type already marked
in construction, `Get(int)` fails with the recursive-binding error and
an untouched world. -/
theorem C1_cycle_detection_witness :
    run 6 cycStacked (.get 0 (.base 1)) =
      (.ok ⟨[.nilv], some .recursiveBinding⟩, cycStacked) :=
  C1_cycle_detection.1 5 cycStacked 0 (.base 1)
    ⟨.base 1, [.base 2], .provider 0 1⟩ rfl (by decide)

/-- C3: binding `Sequence([1])`, then `Sequence([2])`, then
`Sequence(Singleton(provider returning [3]))` makes `Get([]int)` return
`[1, 2, 3]` in that order; the provider runs at build (`Get`) time, not
at bind time: the log is empty after the three binds and contains the
one provider invocation after the `Get`. -/
theorem C3_sequence_merge_order :
    (run 20 seqWorld (.get 0 (.slice (.base 0)))).1 =
      .ok ⟨[.vslice (.base 0) [(.base 0, 1), (.base 0, 2), (.base 0, 3)]], none⟩ ∧
    seqWorld.log = [] ∧
    (run 20 seqWorld (.get 0 (.slice (.base 0)))).2.log = [0] :=
  ⟨rfl, rfl, rfl⟩

/-- C9: for a slice-of-interface type with no exact table entry,
resolution always succeeds with the aggregate binding synthesized from
the requesting injector's own state alone (the parent is never
consulted); with zero matching bindings, `Get` returns the empty slice
and no error, leaving the log unchanged. -/
theorem C9_slice_aggregate :
    (∀ (f : Nat) (w : World) (i n : Nat),
      lookupB (w.injAt i).bindings (.slice (.iface n)) = none →
      resolve w (f + 1) i (.slice (.iface n)) =
        .ok (mkSliceBinding (w.injAt i) (.slice (.iface n)) (.iface n))) ∧
    (∀ (f : Nat) (w : World) (i n : Nat),
      lookupB (w.injAt i).bindings (.slice (.iface n)) = none →
      collectSlice (w.injAt i) (.iface n) = [] →
      (.slice (.iface n) : Ty) ∉ (w.injAt i).stack →
      (run (f + 3) w (.get i (.slice (.iface n)))).1 =
        .ok ⟨[.vslice (.iface n) []], none⟩ ∧
      (run (f + 3) w (.get i (.slice (.iface n)))).2.log = w.log) := by
  refine ⟨fun f w i n hl => resolve_sliceIface f w i n hl, ?_⟩
  intro f w i n hl hcol hst
  have hres := resolve_sliceIface (f + 1) w i n hl
  have hb : mkSliceBinding (w.injAt i) (.slice (.iface n)) (.iface n) =
      ⟨.slice (.iface n), [], .aggSlice (.slice (.iface n)) []⟩ := by
    simp [mkSliceBinding, hcol]
  rw [hb] at hres
  have hget := run_get_eq (f + 2) w i (.slice (.iface n))
    ⟨.slice (.iface n), [], .aggSlice (.slice (.iface n)) []⟩ hres hst
  rw [hget, run_aggSlice_nil f _ (.slice (.iface n))]
  exact ⟨rfl, by simp [andThen]⟩

/-- C9 witness: on a fresh injector (whose self-bindings are not
slices), `Get` of a slice of the never-implemented interface 3 yields
the empty slice. -/
theorem C9_slice_aggregate_witness :
    (run 10 freshWorld (.get 0 (.slice (.iface 3)))).1 =
      .ok ⟨[.vslice (.iface 3) []], none⟩ ∧
    (run 10 freshWorld (.get 0 (.slice (.iface 3)))).2.log = freshWorld.log :=
  C9_slice_aggregate.2 7 freshWorld 0 3 rfl rfl (by decide)

/-- C8 counterexample: the round-trip identity fails as stated. A
pointer-to-interface literal (`*I`, 42) binds successfully, but `Get` on
its runtime type unwraps to the interface and fails with an unbound-type
error instead of returning the value. -/
theorem C8_counterexample :
    (bindOne freshWorld 0 (.value (.prim (.ptr (.iface 1)) 42))).1 = none ∧
    (run 10 ptrWorld (.get 0 (.ptr (.iface 1)))).1 =
      .ok ⟨[.nilv], some (.unbound (.iface 1))⟩ :=
  ⟨rfl, rfl⟩

/-- C8 as amended: for every plain (non-function, non-annotation) value
`v` whose runtime type is not a pointer to an interface, bound on an
existing injector whose table lacks that type and which is not
mid-construction of it, `Bind(v)` succeeds and a subsequent `Get` on
the runtime type of `v` returns exactly `v`. -/
theorem C8_literal_roundtrip :
    ∀ (f : Nat) (w : World) (i : Nat) (v : Val),
    i < w.injectors.length →
    lookupB (w.injAt i).bindings v.typeOf = none →
    v.typeOf ∉ (w.injAt i).stack →
    tyUnwrap v.typeOf = v.typeOf →
    (bindOne w i (.value v)).1 = none ∧
    (run (f + 2) ((bindOne w i (.value v)).2) (.get i v.typeOf)).1 =
      .ok ⟨[v], none⟩ := by
  intro f w i v hi hl hst hu
  have hbind : bindOne w i (.value v) = (none, w.setInj i
      { w.injAt i with
        bindings := insertB (w.injAt i).bindings v.typeOf ⟨v.typeOf, [], .lit v⟩
        bindingOrder := (w.injAt i).bindingOrder ++ [v.typeOf] }) := by
    simp [bindOne, annBuild, hl]
  refine ⟨by rw [hbind], ?_⟩
  rw [hbind]
  have hself := injAt_setInj_self w i
    { w.injAt i with
      bindings := insertB (w.injAt i).bindings v.typeOf ⟨v.typeOf, [], .lit v⟩
      bindingOrder := (w.injAt i).bindingOrder ++ [v.typeOf] } hi
  have hres : resolve (w.setInj i
      { w.injAt i with
        bindings := insertB (w.injAt i).bindings v.typeOf ⟨v.typeOf, [], .lit v⟩
        bindingOrder := (w.injAt i).bindingOrder ++ [v.typeOf] }) (f + 1) i
      (tyUnwrap v.typeOf) = .ok ⟨v.typeOf, [], .lit v⟩ := by
    rw [hu]
    exact resolve_hit f _ i v.typeOf _ (by rw [hself]; exact lookup_insertB_self ..)
  have hget := run_get_eq (f + 1) _ i v.typeOf ⟨v.typeOf, [], .lit v⟩ hres
    (by rw [hself]; exact hst)
  have hf : f + 2 = f + 1 + 1 := rfl
  rw [hf, hget]
  dsimp only
  rw [run_lit]
  rfl

/-- C8 witness: binding the literal `prim (base 30) 7` on a fresh
injector and getting `base 30` returns exactly that value. -/
theorem C8_literal_roundtrip_witness :
    (bindOne freshWorld 0 (.value (.prim (.base 30) 7))).1 = none ∧
    (run 5 ((bindOne freshWorld 0 (.value (.prim (.base 30) 7))).2)
      (.get 0 (Val.prim (.base 30) 7).typeOf)).1 =
      .ok ⟨[.prim (.base 30) 7], none⟩ :=
  C8_literal_roundtrip 3 freshWorld 0 (.prim (.base 30) 7)
    (by decide) rfl (by decide) rfl

/-- C5 counterexample: the claim fails as stated. In a fresh injector
the binder interface key (the unwrapped descriptor, where `BindTo`
stores interface bindings) is occupied, yet repeating the very same
`BindTo((*SafeBinder)(nil), injector)` returns no duplicate-binding
error — the duplicate check tests the raw pointer-to-interface type,
under which nothing is ever stored. -/
theorem C5_counterexample :
    (lookupB (freshWorld.injAt 0).bindings binderIfaceTy).isSome = true ∧
    (bindTo freshWorld 0 (.ptr binderIfaceTy) (.value (.inj 0))).1 = none :=
  ⟨rfl, rfl⟩

/-- C5 as amended: `BindTo(asType, impl)` fails with a duplicate-binding
error exactly when the raw type of `asType` (not the unwrapped
interface key) is occupied — in both modes; and in interface mode, an
occupied unwrapped key with a free raw key lets `BindTo` succeed,
overwriting the interface binding. -/
theorem C5_bindto_duplicate :
    ∀ (w : World) (i : Nat) (asTy : Ty) (impl : Bindable) (b : Binding)
      (w' : World), annBuild w i impl = (.ok b, w') →
    (((bindTo w i asTy impl).1 = some (.alreadyBound asTy)) ↔
      (lookupB (w'.injAt i).bindings asTy).isSome = true) ∧
    (∀ m, asTy = .ptr (.iface m) →
      lookupB (w'.injAt i).bindings asTy = none →
      implementsB b.Provides (.iface m) = true →
      (bindTo w i asTy impl).1 = none) := by
  intro w i asTy impl b w' hab
  constructor
  · constructor
    · intro hres
      by_cases hs : (lookupB (w'.injAt i).bindings asTy).isSome = true
      · exact hs
      · exfalso
        simp only [bindTo, hab] at hres
        rw [if_neg hs] at hres
        rcases asTy with n | n | e | ⟨k, e⟩ | p
        · dsimp only at hres; split at hres <;> simp at hres
        · dsimp only at hres; split at hres <;> simp at hres
        · dsimp only at hres; split at hres <;> simp at hres
        · dsimp only at hres; split at hres <;> simp at hres
        · rcases p with n | n | e | ⟨k, e⟩ | q <;>
            (dsimp only at hres; split at hres <;> simp at hres)
    · intro hs
      simp only [bindTo, hab]
      rw [if_pos hs]
  · intro m hm hnone himpl
    subst hm
    simp only [bindTo, hab]
    rw [if_neg (by simp [hnone])]
    rw [if_pos himpl]

/-- C5 witness: binding to the already-occupied concrete injector type
on a fresh injector reports the duplicate, per the raw-key rule. -/
theorem C5_bindto_duplicate_witness :
    (((bindTo freshWorld 0 injectorTy (.value (.inj 0))).1 =
        some (.alreadyBound injectorTy)) ↔
      (lookupB (freshWorld.injAt 0).bindings injectorTy).isSome = true) ∧
    (∀ m, injectorTy = .ptr (.iface m) →
      lookupB (freshWorld.injAt 0).bindings injectorTy = none →
      implementsB (Binding.Provides ⟨injectorTy, [], .lit (.inj 0)⟩) (.iface m) = true →
      (bindTo freshWorld 0 injectorTy (.value (.inj 0))).1 = none) :=
  C5_bindto_duplicate freshWorld 0 injectorTy (.value (.inj 0))
    ⟨injectorTy, [], .lit (.inj 0)⟩ freshWorld rfl

/-- C6 counterexample: the claimed equivalence fails. With a provider of
`base 4` requiring the unbound `base 5` in the table, `Validate` of a
zero-argument function fails although `Call` of that function fully
succeeds. -/
theorem C6_counterexample :
    validateOk valWorld 10 0 3 = false ∧
    (run 20 valWorld (.call 0 3)).1 = .ok ⟨[.prim (.base 6) 7], none⟩ :=
  ⟨rfl, rfl⟩

/-- C6 as amended: `Validate(f)` succeeds exactly when every binding in
the injector's own table has all its `Requires` resolvable and every
parameter type of `f` is resolvable; its verdict reads only binding
tables — it is unchanged by invocation-log growth or singleton-cache
state, the only effects builds have. (It is not equivalent to `Call`'s
resolvability verdict; see the counterexample.) -/
theorem C6_validate_characterization :
    ∀ (w : World) (fuel i pid : Nat),
    (validateOk w fuel i pid = true ↔
      ((∀ p ∈ (w.injAt i).bindings, ∀ t ∈ (Binding.Requires p.2),
          (resolve w fuel i t).isOk = true) ∧
        ∀ t ∈ (w.provs.getD pid default).args, (resolve w fuel i t).isOk = true)) ∧
    (∀ p, validateOk (w.pushLog p) fuel i pid = validateOk w fuel i pid) ∧
    (∀ c v, validateOk (w.setCell c v) fuel i pid = validateOk w fuel i pid) := by
  intro w fuel i pid
  refine ⟨?_, ?_, ?_⟩
  · simp [validateOk, bindingsOk_iff, resolvableList_iff]
  · intro p
    have hsame : ∀ j, ((w.pushLog p).injAt j).bindings = (w.injAt j).bindings ∧
        ((w.pushLog p).injAt j).bindingOrder = (w.injAt j).bindingOrder ∧
        ((w.pushLog p).injAt j).parent = (w.injAt j).parent :=
      fun j => ⟨rfl, rfl, rfl⟩
    simp only [validateOk, injAt_pushLog, provs_pushLog,
      bindingsOk_congr w (w.pushLog p) fuel i hsame,
      resolvableList_congr w (w.pushLog p) fuel i hsame]
  · intro c v
    have hsame : ∀ j, ((w.setCell c v).injAt j).bindings = (w.injAt j).bindings ∧
        ((w.setCell c v).injAt j).bindingOrder = (w.injAt j).bindingOrder ∧
        ((w.setCell c v).injAt j).parent = (w.injAt j).parent :=
      fun j => ⟨rfl, rfl, rfl⟩
    simp only [validateOk, injAt_setCell, provs_setCell,
      bindingsOk_congr w (w.setCell c v) fuel i hsame,
      resolvableList_congr w (w.setCell c v) fuel i hsame]

/-- C6 witness: the characterization at the Validate scenario. -/
theorem C6_validate_characterization_witness :
    (validateOk valWorld 10 0 3 = true ↔
      ((∀ p ∈ (valWorld.injAt 0).bindings, ∀ t ∈ (Binding.Requires p.2),
          (resolve valWorld 10 0 t).isOk = true) ∧
        ∀ t ∈ (valWorld.provs.getD 3 default).args,
          (resolve valWorld 10 0 t).isOk = true)) ∧
    (∀ p, validateOk (valWorld.pushLog p) 10 0 3 = validateOk valWorld 10 0 3) ∧
    (∀ c v, validateOk (valWorld.setCell c v) 10 0 3 = validateOk valWorld 10 0 3) :=
  C6_validate_characterization valWorld 10 0 3

theorem injAt_oor (w : World) (i : Nat) (h : w.injectors.length ≤ i) :
    w.injAt i = default := by
  simp [World.injAt, List.getD_eq_getElem?_getD, List.getElem?_eq_none h]

/-- Resolution of an interface type with no exact hit and no own-table
implementor is pure parent delegation. -/
theorem resolve_iface_deleg (f : Nat) (w : World) (c p m : Nat)
    (hp : (w.injAt c).parent = some p)
    (hl : lookupB (w.injAt c).bindings (.iface m) = none)
    (hs : scanIface (w.injAt c).bindings (.iface m) = none) :
    resolve w (f + 1) c (.iface m) = resolve w f p (.iface m) := by
  simp only [resolve, hl, hs, hp]

/-- Whatever type the parent can resolve, the child can resolve: exact
hit or interface scan succeed outright, aggregates always synthesize,
and every other path delegates to the parent. -/
theorem resolve_child_isOk (f : Nat) (w : World) (c p : Nat) (t : Ty)
    (hp : (w.injAt c).parent = some p)
    (hok : (resolve w f p t).isOk = true) :
    (resolve w (f + 1) c t).isOk = true := by
  simp only [resolve]
  rcases hl : lookupB (w.injAt c).bindings t with _ | b
  · dsimp only
    rcases t with n | n | e | ⟨k, e⟩ | pt
    · dsimp only; rw [hp]; exact hok
    · dsimp only
      rcases hs : scanIface (w.injAt c).bindings (.iface n) with _ | b
      · dsimp only; rw [hp]; exact hok
      · rfl
    · rcases e with n | n | e' | ⟨k', e'⟩ | p'
      · dsimp only; rw [hp]; exact hok
      · rfl
      · dsimp only; rw [hp]; exact hok
      · dsimp only; rw [hp]; exact hok
      · dsimp only; rw [hp]; exact hok
    · rcases e with n | n | e' | ⟨k', e'⟩ | p'
      · dsimp only; rw [hp]; exact hok
      · rfl
      · dsimp only; rw [hp]; exact hok
      · dsimp only; rw [hp]; exact hok
      · dsimp only; rw [hp]; exact hok
    · dsimp only; rw [hp]; exact hok
  · rfl

/-- `resolve` at an injector other than `c` is unchanged between worlds
that agree on every injector except `c`, provided no parent pointer
targets `c`: resolution starting off `c` never visits `c`. -/
theorem resolve_congr_off : ∀ (f : Nat) (w w' : World) (c : Nat)
    (h : ∀ j, j ≠ c → (w'.injAt j).bindings = (w.injAt j).bindings ∧
      (w'.injAt j).bindingOrder = (w.injAt j).bindingOrder ∧
      (w'.injAt j).parent = (w.injAt j).parent)
    (hnoc : ∀ j, (w.injAt j).parent ≠ some c)
    (i : Nat) (t : Ty), i ≠ c → resolve w' f i t = resolve w f i t := by
  intro f
  induction f with
  | zero => intro w w' c h hnoc i t hic; rfl
  | succ f ih =>
    intro w w' c h hnoc i t hic
    obtain ⟨hb, ho, hp⟩ := h i hic
    have hcs : ∀ et, collectSlice (w'.injAt i) et = collectSlice (w.injAt i) et := by
      intro et; simp only [collectSlice, hb, ho]
    have hcm : ∀ k et, collectMap (w'.injAt i) k et = collectMap (w.injAt i) k et := by
      intro k et; simp only [collectMap, hb, ho]
    have hpar : ∀ (u : Ty),
        (match (w.injAt i).parent with
          | some p => resolve w' f p u
          | none => Except.error (Err.unbound u)) =
        (match (w.injAt i).parent with
          | some p => resolve w f p u
          | none => Except.error (Err.unbound u)) := by
      intro u
      rcases hq : (w.injAt i).parent with _ | q
      · rfl
      · exact ih w w' c h hnoc q u (fun hqc => hnoc i (by rw [hq, hqc]))
    simp only [resolve, hb, hp]
    rcases hl : lookupB (w.injAt i).bindings t with _ | b
    · dsimp only
      rcases t with n | n | e | ⟨k, e⟩ | p
      · exact hpar (.base n)
      · dsimp only
        rcases hs : scanIface (w.injAt i).bindings (.iface n) with _ | b
        · exact hpar (.iface n)
        · rfl
      · rcases e with n | n | e' | ⟨k', e'⟩ | p'
        · exact hpar (.slice (.base n))
        · dsimp only
          rw [mkSliceBinding, mkSliceBinding, hcs]
        · exact hpar (.slice (.slice e'))
        · exact hpar (.slice (.tmap k' e'))
        · exact hpar (.slice (.ptr p'))
      · rcases e with n | n | e' | ⟨k', e'⟩ | p'
        · exact hpar (.tmap k (.base n))
        · dsimp only
          rw [mkMapBinding, mkMapBinding, hcm]
        · exact hpar (.tmap k (.slice e'))
        · exact hpar (.tmap k (.tmap k' e'))
        · exact hpar (.tmap k (.ptr p'))
      · exact hpar (.ptr p)
    · rfl

/-- `Bind` on injector `c` leaves every other injector's table, order
ledger and parent pointer untouched. -/
theorem bindOne_frame (w : World) (c : Nat) (v : Bindable) (j : Nat)
    (hj : j ≠ c) :
    (((bindOne w c v).2).injAt j).bindings = (w.injAt j).bindings ∧
    (((bindOne w c v).2).injAt j).bindingOrder = (w.injAt j).bindingOrder ∧
    (((bindOne w c v).2).injAt j).parent = (w.injAt j).parent := by
  rcases hab : annBuild w c v with ⟨r, w₁⟩
  have hw := annBuild_world v w c
  rw [hab] at hw
  have h1 : w₁.injectors = w.injectors := hw.1
  have hinj : w₁.injAt j = w.injAt j := by
    simp [World.injAt, h1]
  simp only [bindOne, hab]
  rcases r with e | b
  · exact ⟨by rw [hinj], by rw [hinj], by rw [hinj]⟩
  · dsimp only
    split
    · exact ⟨by rw [hinj], by rw [hinj], by rw [hinj]⟩
    · rw [injAt_setInj_ne w₁ c j _ (fun h => hj h.symm)]
      exact ⟨by rw [hinj], by rw [hinj], by rw [hinj]⟩

/-- `BindTo` on injector `c` leaves every other injector's table, order
ledger and parent pointer untouched, in both its modes and on every
failure path. -/
theorem bindTo_frame (w : World) (c : Nat) (asTy : Ty) (impl : Bindable)
    (j : Nat) (hj : j ≠ c) :
    (((bindTo w c asTy impl).2).injAt j).bindings = (w.injAt j).bindings ∧
    (((bindTo w c asTy impl).2).injAt j).bindingOrder = (w.injAt j).bindingOrder ∧
    (((bindTo w c asTy impl).2).injAt j).parent = (w.injAt j).parent := by
  rcases hab : annBuild w c impl with ⟨r, w₁⟩
  have hw := annBuild_world impl w c
  rw [hab] at hw
  have h1 : w₁.injectors = w.injectors := hw.1
  have hinj : w₁.injAt j = w.injAt j := by
    simp [World.injAt, h1]
  simp only [bindTo, hab]
  rcases r with e | b
  · exact ⟨by rw [hinj], by rw [hinj], by rw [hinj]⟩
  · dsimp only
    split
    · exact ⟨by rw [hinj], by rw [hinj], by rw [hinj]⟩
    · split
      · split
        · rw [injAt_setInj_ne w₁ c j _ (fun h => hj h.symm)]
          exact ⟨by rw [hinj], by rw [hinj], by rw [hinj]⟩
        · exact ⟨by rw [hinj], by rw [hinj], by rw [hinj]⟩
      · split
        · rw [injAt_setInj_ne w₁ c j _ (fun h => hj h.symm)]
          exact ⟨by rw [hinj], by rw [hinj], by rw [hinj]⟩
        · exact ⟨by rw [hinj], by rw [hinj], by rw [hinj]⟩

/-- `Get` leaves every injector's table, order ledger and parent
pointer untouched. -/
theorem get_frame (f : Nat) (w : World) (c : Nat) (t : Ty) (j : Nat) :
    (((run f w (.get c t)).2).injAt j).bindings = (w.injAt j).bindings ∧
    (((run f w (.get c t)).2).injAt j).bindingOrder = (w.injAt j).bindingOrder ∧
    (((run f w (.get c t)).2).injAt j).parent = (w.injAt j).parent := by
  have h := (run_sameTables f w (.get c t)).2.2.2 j
  exact ⟨h.2.1, h.2.2, h.1⟩

/-- A `Bind` on `c` changes no other injector's resolution when no
parent pointer targets `c` (in particular, a child's bindings stay
invisible to its parent and every ancestor). -/
theorem bind_invisible (w : World) (c : Nat) (v : Bindable) (f q : Nat)
    (t : Ty) (hnoc : ∀ j, (w.injAt j).parent ≠ some c) (hq : q ≠ c) :
    resolve ((bindOne w c v).2) f q t = resolve w f q t :=
  resolve_congr_off f w ((bindOne w c v).2) c
    (fun j hj => bindOne_frame w c v j hj) hnoc q t hq

/-- A `BindTo` on `c` changes no other injector's resolution when no
parent pointer targets `c`. -/
theorem bindTo_invisible (w : World) (c : Nat) (asTy : Ty) (impl : Bindable)
    (f q : Nat) (t : Ty) (hnoc : ∀ j, (w.injAt j).parent ≠ some c)
    (hq : q ≠ c) :
    resolve ((bindTo w c asTy impl).2) f q t = resolve w f q t :=
  resolve_congr_off f w ((bindTo w c asTy impl).2) c
    (fun j hj => bindTo_frame w c asTy impl j hj) hnoc q t hq

/-- A `Get` anywhere changes no injector's resolution at all. -/
theorem get_invisible (g : Nat) (w : World) (c : Nat) (s : Ty) (f q : Nat)
    (t : Ty) : resolve ((run g w (.get c s)).2) f q t = resolve w f q t :=
  resolve_congr f w ((run g w (.get c s)).2)
    (fun j => by
      have h := (run_sameTables g w (.get c s)).2.2.2 j
      exact ⟨h.2.1, h.2.2, h.1⟩) q t

/-- C7: child scoping. (1) A plain type with no entry in the child's
table resolves exactly as on the parent; (2) so does an interface type
none of the child's own keys implement; (3) any type the parent can
resolve, the child can resolve (interface-keyed and aggregate parent
bindings included); (4) a type bound on the child shadows any parent
binding; (5) `Bind`, (6) `BindTo` and (7) `Get` on the child leave
every other injector's table, order ledger and parent pointer
untouched; (8) `Bind`/`BindTo` on a child no parent pointer targets
change no other injector's resolution — the child's bindings are
invisible through the parent's (or any ancestor's) `Get`; (9) `Get`
changes no resolution at all; and (10) a plain type absent from a
rootless injector's table stays unbound there regardless of any
child's bindings. -/
theorem C7_child_scoping :
    (∀ (f : Nat) (w : World) (c p : Nat) (t : Ty),
      (w.injAt c).parent = some p → lookupB (w.injAt c).bindings t = none →
      plainTy t = true → resolve w (f + 1) c t = resolve w f p t) ∧
    (∀ (f : Nat) (w : World) (c p m : Nat),
      (w.injAt c).parent = some p →
      lookupB (w.injAt c).bindings (.iface m) = none →
      scanIface (w.injAt c).bindings (.iface m) = none →
      resolve w (f + 1) c (.iface m) = resolve w f p (.iface m)) ∧
    (∀ (f : Nat) (w : World) (c p : Nat) (t : Ty),
      (w.injAt c).parent = some p → (resolve w f p t).isOk = true →
      (resolve w (f + 1) c t).isOk = true) ∧
    (∀ (f : Nat) (w : World) (c : Nat) (t : Ty) (b : Binding),
      lookupB (w.injAt c).bindings t = some b → resolve w (f + 1) c t = .ok b) ∧
    (∀ (w : World) (c : Nat) (v : Bindable) (j : Nat), j ≠ c →
      (((bindOne w c v).2).injAt j).bindings = (w.injAt j).bindings ∧
      (((bindOne w c v).2).injAt j).bindingOrder = (w.injAt j).bindingOrder ∧
      (((bindOne w c v).2).injAt j).parent = (w.injAt j).parent) ∧
    (∀ (w : World) (c : Nat) (asTy : Ty) (impl : Bindable) (j : Nat), j ≠ c →
      (((bindTo w c asTy impl).2).injAt j).bindings = (w.injAt j).bindings ∧
      (((bindTo w c asTy impl).2).injAt j).bindingOrder = (w.injAt j).bindingOrder ∧
      (((bindTo w c asTy impl).2).injAt j).parent = (w.injAt j).parent) ∧
    (∀ (f : Nat) (w : World) (c : Nat) (t : Ty) (j : Nat),
      (((run f w (.get c t)).2).injAt j).bindings = (w.injAt j).bindings ∧
      (((run f w (.get c t)).2).injAt j).bindingOrder = (w.injAt j).bindingOrder ∧
      (((run f w (.get c t)).2).injAt j).parent = (w.injAt j).parent) ∧
    (∀ (w : World) (c q f : Nat) (t : Ty),
      (∀ j, (w.injAt j).parent ≠ some c) → q ≠ c →
      (∀ v, resolve ((bindOne w c v).2) f q t = resolve w f q t) ∧
      (∀ asTy impl, resolve ((bindTo w c asTy impl).2) f q t = resolve w f q t)) ∧
    (∀ (g : Nat) (w : World) (c : Nat) (s : Ty) (f q : Nat) (t : Ty),
      resolve ((run g w (.get c s)).2) f q t = resolve w f q t) ∧
    (∀ (f : Nat) (w : World) (p : Nat) (t : Ty),
      (w.injAt p).parent = none → lookupB (w.injAt p).bindings t = none →
      plainTy t = true →
      run (f + 1) w (.get p t) = (.ok ⟨[.nilv], some (.unbound t)⟩, w)) := by
  refine ⟨?_, ?_, ?_, ?_, ?_, ?_, ?_, ?_, ?_, ?_⟩
  · intro f w c p t hp hl hpl
    rw [resolve_plain f w c t hl hpl, hp]
  · intro f w c p m hp hl hs
    exact resolve_iface_deleg f w c p m hp hl hs
  · intro f w c p t hp hok
    exact resolve_child_isOk f w c p t hp hok
  · intro f w c t b hb
    exact resolve_hit f w c t b hb
  · intro w c v j hj
    exact bindOne_frame w c v j hj
  · intro w c asTy impl j hj
    exact bindTo_frame w c asTy impl j hj
  · intro f w c t j
    exact get_frame f w c t j
  · intro w c q f t hnoc hq
    exact ⟨fun v => bind_invisible w c v f q t hnoc hq,
      fun asTy impl => bindTo_invisible w c asTy impl f q t hnoc hq⟩
  · intro g w c s f q t
    exact get_invisible g w c s f q t
  · intro f w p t hp hl hpl
    have hu := plain_unwrap hpl
    cases f with
    | zero =>
      simp only [run, hu]
      rfl
    | succ g =>
      have hres : resolve w (g + 1) p t = .error (.unbound t) := by
        rw [resolve_plain g w p t hl hpl, hp]
      simp only [run, hu, hres]

/-- C7 witness: on the concrete parent-and-child worlds, the child
resolves the parent-only plain type and the parent-only interface type
by delegation (the latter successfully), its own self-binding shadows,
`Bind`/`BindTo` on the child leave the parent's table intact and the
parent's resolutions unchanged, and a rootless injector misses a type
bound nowhere. -/
theorem C7_child_scoping_witness :
    resolve childWorld 4 1 (.base 20) = resolve childWorld 3 0 (.base 20) ∧
    resolve childIfaceWorld 4 1 (.iface 1) = resolve childIfaceWorld 3 0 (.iface 1) ∧
    (resolve childIfaceWorld 4 1 (.iface 1)).isOk = true ∧
    resolve childWorld 4 1 (.base 100) = .ok ⟨.base 100, [], .lit (.inj 1)⟩ ∧
    (((bindOne childWorld 1 (.value (.prim (.base 21) 3))).2).injAt 0).bindings =
      (childWorld.injAt 0).bindings ∧
    (((bindTo childWorld 1 (.ptr (.iface 1)) (.value (.prim (.base 1) 77))).2).injAt 0).bindings =
      (childWorld.injAt 0).bindings ∧
    (∀ v, resolve ((bindOne childWorld 1 v).2) 4 0 (.base 20) =
      resolve childWorld 4 0 (.base 20)) ∧
    (∀ asTy impl, resolve ((bindTo childWorld 1 asTy impl).2) 4 0 (.base 20) =
      resolve childWorld 4 0 (.base 20)) ∧
    run 4 freshWorld (.get 0 (.base 33)) =
      (.ok ⟨[.nilv], some (.unbound (.base 33))⟩, freshWorld) := by
  have hnoc : ∀ j, (childWorld.injAt j).parent ≠ some 1 := by
    intro j
    rcases j with _ | _ | j
    · decide
    · decide
    · rw [injAt_oor childWorld (j + 2)
        (by rw [show childWorld.injectors.length = 2 from rfl]; omega)]
      decide
  refine ⟨C7_child_scoping.1 3 childWorld 1 0 (.base 20) rfl rfl rfl,
    C7_child_scoping.2.1 3 childIfaceWorld 1 0 1 rfl rfl rfl,
    C7_child_scoping.2.2.1 3 childIfaceWorld 1 0 (.iface 1) rfl rfl,
    C7_child_scoping.2.2.2.1 3 childWorld 1 (.base 100) ⟨.base 100, [], .lit (.inj 1)⟩ rfl,
    (C7_child_scoping.2.2.2.2.1 childWorld 1 (.value (.prim (.base 21) 3)) 0 (by omega)).1,
    (C7_child_scoping.2.2.2.2.2.1 childWorld 1 (.ptr (.iface 1)) (.value (.prim (.base 1) 77)) 0 (by omega)).1,
    fun v => (C7_child_scoping.2.2.2.2.2.2.2.1 childWorld 1 0 4 (.base 20) hnoc (by omega)).1 v,
    fun asTy impl => (C7_child_scoping.2.2.2.2.2.2.2.1 childWorld 1 0 4 (.base 20) hnoc (by omega)).2 asTy impl,
    C7_child_scoping.2.2.2.2.2.2.2.2.2 3 freshWorld 0 (.base 33) rfl rfl rfl⟩

/-- C4: given a value whose annotation builds (with provides-type from
the built binding), `Bind` fails with the duplicate-binding error
exactly when the provides-type is already in the table and the
normalized annotation chain contains no Sequence or Mapping node; when
it does contain one, `Bind` succeeds and the new binding replaces the
table entry. -/
theorem C4_duplicate_binding :
    ∀ (w : World) (i : Nat) (v : Bindable) (b : Binding) (w' : World),
    annBuild w i v = (.ok b, w') → i < w.injectors.length →
    (((bindOne w i v).1 = some (.alreadyBound b.Provides)) ↔
      ((lookupB (w'.injAt i).bindings b.Provides).isSome = true ∧
        chainHasSeqOrMap (annotate v) = false)) ∧
    (chainHasSeqOrMap (annotate v) = true →
      (bindOne w i v).1 = none ∧
      lookupB (((bindOne w i v).2).injAt i).bindings b.Provides = some b) := by
  intro w i v b w' hab hi
  have hchain : (isSequenceAnn (annotate v) || isMappingAnn (annotate v)) =
      chainHasSeqOrMap (annotate v) := by
    rw [annotate_isSequence, annotate_isMapping, annotate_chain]
    exact isSeqOrMap_eq_chain v w i b w' hab
  have hwa := annBuild_world v w i
  rw [hab] at hwa
  have hi' : i < w'.injectors.length := by
    have h1 : w'.injectors = w.injectors := hwa.1
    rw [h1]; exact hi
  refine ⟨?_, ?_⟩
  · simp only [bindOne, hab]
    rw [show ((lookupB (w'.injAt i).bindings b.Provides).isSome &&
        !(isSequenceAnn (annotate v) || isMappingAnn (annotate v))) =
        ((lookupB (w'.injAt i).bindings b.Provides).isSome &&
          !chainHasSeqOrMap (annotate v)) from by rw [hchain]]
    cases hc : chainHasSeqOrMap (annotate v) with
    | false =>
      cases hs : (lookupB (w'.injAt i).bindings b.Provides).isSome with
      | false => simp
      | true => simp
    | true => simp
  · intro hc
    have hcondF : ((lookupB (w'.injAt i).bindings b.Provides).isSome &&
        !(isSequenceAnn (annotate v) || isMappingAnn (annotate v))) = false := by
      rw [hchain, hc]; simp
    simp only [bindOne, hab]
    rw [if_neg (by rw [hcondF]; simp)]
    refine ⟨rfl, ?_⟩
    rw [injAt_setInj_self w' i _ hi']
    exact lookup_insertB_self ..

/-- C4 witness: re-binding an occupied `base 40` with a plain literal
reports the duplicate, and the characterization holds at that input. -/
theorem C4_duplicate_binding_witness :
    (((bindOne dupWorld 0 (.value (.prim (.base 40) 2))).1 =
        some (.alreadyBound (Binding.Provides ⟨.base 40, [], .lit (.prim (.base 40) 2)⟩))) ↔
      ((lookupB (dupWorld.injAt 0).bindings
          (Binding.Provides ⟨.base 40, [], .lit (.prim (.base 40) 2)⟩)).isSome = true ∧
        chainHasSeqOrMap (annotate (.value (.prim (.base 40) 2))) = false)) ∧
    (chainHasSeqOrMap (annotate (.value (.prim (.base 40) 2))) = true →
      (bindOne dupWorld 0 (.value (.prim (.base 40) 2))).1 = none ∧
      lookupB (((bindOne dupWorld 0 (.value (.prim (.base 40) 2))).2).injAt 0).bindings
        (Binding.Provides ⟨.base 40, [], .lit (.prim (.base 40) 2)⟩) =
        some ⟨.base 40, [], .lit (.prim (.base 40) 2)⟩) :=
  C4_duplicate_binding dupWorld 0 (.value (.prim (.base 40) 2))
    ⟨.base 40, [], .lit (.prim (.base 40) 2)⟩ dupWorld rfl (by decide)

/-! ### Singleton-cell bookkeeping -/

theorem count_pushLog_self (w : World) (pid : Nat) :
    (w.pushLog pid).log.count pid = w.log.count pid + 1 := by
  simp [World.pushLog, List.count_append]

theorem count_pushLog_ne (w : World) {q pid : Nat} (h : q ≠ pid) :
    (w.pushLog q).log.count pid = w.log.count pid := by
  simp [World.pushLog, List.count_append, List.count_singleton', h]

theorem cellSteady_frozen {pid cid : Nat} {w w' : World}
    (hc : w'.cellAt cid = w.cellAt cid)
    (hn : w'.log.count pid = w.log.count pid) : CellSteady pid cid w w' := by
  refine ⟨fun h => ⟨by rw [hc]; exact h, by rw [hc], hn⟩,
    fun h => ⟨hc, hn⟩, ?_⟩
  rw [hn]
  exact Nat.le_add_right _ _

theorem cellSteady_refl (pid cid : Nat) (w : World) : CellSteady pid cid w w :=
  cellSteady_frozen rfl rfl

theorem cellSteady_comp {pid cid : Nat} {w w₁ w₂ : World}
    (h₁ : CellSteady pid cid w w₁) (h₂ : CellSteady pid cid w₁ w₂) :
    CellSteady pid cid w w₂ := by
  obtain ⟨a₁, b₁, c₁⟩ := h₁
  obtain ⟨a₂, b₂, c₂⟩ := h₂
  refine ⟨?_, ?_, ?_⟩
  · intro h
    obtain ⟨i₁, v₁, n₁⟩ := a₁ h
    obtain ⟨i₂, v₂, n₂⟩ := a₂ i₁
    exact ⟨i₂, v₂.trans v₁, n₂.trans n₁⟩
  · intro h
    obtain ⟨e₁, n₁⟩ := b₁ h
    obtain ⟨e₂, n₂⟩ := b₂ (by rw [e₁]; exact h)
    exact ⟨e₂.trans e₁, n₂.trans n₁⟩
  · by_cases hC0 : (w.cellAt cid).isCached = true
    · obtain ⟨i₁, v₁, n₁⟩ := a₁ hC0
      obtain ⟨i₂, v₂, n₂⟩ := a₂ i₁
      rw [n₂, n₁]
      exact Nat.le_add_right _ _
    · by_cases hC2 : (w₂.cellAt cid).isCached = true
      · rw [if_pos ⟨by simpa using hC0, hC2⟩]
        by_cases hC1 : (w₁.cellAt cid).isCached = true
        · obtain ⟨-, -, n₂⟩ := a₂ hC1
          have hle₁ : w₁.log.count pid ≤ w.log.count pid + 1 :=
            le_trans c₁ (by split <;> omega)
          omega
        · have e₁0 : (if (w.cellAt cid).isCached = false ∧
              (w₁.cellAt cid).isCached = true then 1 else 0) = 0 :=
            if_neg (fun hx => hC1 hx.2)
          have e₂1 : w₂.log.count pid ≤ w₁.log.count pid + 1 :=
            le_trans c₂ (by split <;> omega)
          rw [e₁0] at c₁
          omega
      · have e₂0 : (if (w₁.cellAt cid).isCached = false ∧
            (w₂.cellAt cid).isCached = true then 1 else 0) = 0 :=
          if_neg (fun hx => hC2 hx.2)
        have e₀ : (if (w.cellAt cid).isCached = false ∧
            (w₂.cellAt cid).isCached = true then 1 else 0) = 0 :=
          if_neg (fun hx => hC2 hx.2)
        rw [e₂0] at c₂
        rw [e₀]
        by_cases hC1 : (w₁.cellAt cid).isCached = true
        · obtain ⟨i₂, -, -⟩ := a₂ hC1
          exact absurd i₂ hC2
        · have e₁0 : (if (w.cellAt cid).isCached = false ∧
              (w₁.cellAt cid).isCached = true then 1 else 0) = 0 :=
            if_neg (fun hx => hC1 hx.2)
          rw [e₁0] at c₁
          omega

theorem cellBundle_frozen {pid cid : Nat} {w w' : World}
    (hc : w'.cellAt cid = w.cellAt cid)
    (hn : w'.log.count pid = w.log.count pid) (o : Outcome) :
    CellBundle pid cid w w' o :=
  ⟨cellSteady_frozen hc hn, fun hL _ => by rw [hc]; exact hL⟩

theorem cellBundle_refl (pid cid : Nat) (w : World) (o : Outcome) :
    CellBundle pid cid w w o :=
  cellBundle_frozen rfl rfl o

theorem cellBundle_comp {pid cid : Nat} {w w₁ w₂ : World} {r : Ret} {o₂ : Outcome}
    (h₁ : CellBundle pid cid w w₁ (.ok r)) (h₂ : CellBundle pid cid w₁ w₂ o₂) :
    CellBundle pid cid w w₂ o₂ := by
  refine ⟨cellSteady_comp h₁.1 h₂.1, ?_⟩
  intro hL ho
  exact h₂.2 (h₁.2 hL (fun h => Outcome.noConfusion h)) ho

theorem cellBundle_andThen {pid cid : Nat} {w : World} {r₀ : Outcome × World}
    {k : World → Ret → Outcome × World}
    (h₁ : CellBundle pid cid w r₀.2 r₀.1)
    (h₂ : ∀ w₁ r, r₀ = (.ok r, w₁) →
      CellBundle pid cid w₁ (k w₁ r).2 (k w₁ r).1) :
    CellBundle pid cid w (andThen r₀ k).2 (andThen r₀ k).1 := by
  rcases r₀ with ⟨o, w₁⟩
  rcases o with r | _
  · exact cellBundle_comp h₁ (h₂ w₁ r rfl)
  · exact h₁

theorem guardedW_of_sameTables {pid cid : Nat} {w w' : World}
    (hg : GuardedW pid cid w) (hs : SameTables w w') : GuardedW pid cid w' := by
  intro i p hp
  rw [(hs.2.2.2 i).2.1] at hp
  exact hg i p hp

/-- Every binding `resolve` can produce in a guarded world has a guarded
build tree (table entries directly; synthesized aggregates because their
parts come from table entries). -/
theorem resolve_guarded {pid cid : Nat} : ∀ (f : Nat) (w : World) (i : Nat)
    (t : Ty) (b : Binding), GuardedW pid cid w → resolve w f i t = .ok b →
    GuardedB pid cid b.Build := by
  intro f
  induction f with
  | zero => intro w i t b hg h; simp [resolve] at h
  | succ f ih =>
    intro w i t b hg h
    simp only [resolve] at h
    split at h
    · rename_i b' hl
      obtain rfl : b' = b := by injection h
      exact hg i (t, b') (lookupB_mem hl)
    · split at h
      · split at h
        · rename_i b' hs
          obtain rfl : b' = b := by injection h
          obtain ⟨bt, hbt⟩ := scanIface_mem hs
          exact hg i (bt, b') hbt
        · split at h
          · rename_i p hp
            exact ih w p _ b hg h
          · exact absurd h (by simp)
      · obtain rfl : mkSliceBinding (w.injAt i) _ _ = b := by injection h
        simp only [mkSliceBinding, GuardedB]
        intro fn hfn
        obtain ⟨b', hb', rfl⟩ := List.mem_map.mp hfn
        obtain ⟨bt, hbt⟩ := collectSlice_mem hb'
        exact hg i (bt, b') hbt
      · obtain rfl : mkMapBinding (w.injAt i) _ _ _ = b := by injection h
        simp only [mkMapBinding, GuardedB]
        intro fn hfn
        obtain ⟨b', hb', rfl⟩ := List.mem_map.mp hfn
        obtain ⟨bt, hbt⟩ := collectMap_mem hb'
        exact hg i (bt, b') hbt
      · split at h
        · rename_i p hp
          exact ih w p _ b hg h
        · exact absurd h (by simp)

/-- Unfolding equations for the evaluator, used by the guarded
induction. -/
theorem run_provider_eq (f : Nat) (w : World) (j q : Nat) :
    run (f + 1) w (.build (.provider j q)) =
      andThen (run f w (.call j q)) fun w₁ r =>
        match r with
        | ⟨_, some e⟩ => (.ok ⟨[.nilv], some e⟩, w₁)
        | ⟨vs, none⟩ => (.ok ⟨[vs.headD .nilv], none⟩, w₁) := rfl

theorem run_call_eq (f : Nat) (w : World) (i q : Nat) :
    run (f + 1) w (.call i q) =
      andThen (run f w (.args i ((w.provs.getD q default).args) 1)) fun w₁ r =>
        match r with
        | ⟨_, some e⟩ => (.ok ⟨[], some e⟩, w₁)
        | ⟨vs, none⟩ =>
          match (w.provs.getD q default).impl vs with
          | (_, some e) => (.ok ⟨[], some e⟩, w₁.pushLog q)
          | (v, none) => (.ok ⟨[v], none⟩, w₁.pushLog q) := rfl

theorem run_singleton_locked (f : Nat) (w : World) (c : Nat) (inner : BuildFn)
    (hL : (w.cellAt c).locked = true) :
    run (f + 1) w (.build (.singleton c inner)) = (.hang, w) := by
  simp only [run]
  rw [if_pos hL]

theorem run_singleton_cached (f : Nat) (w : World) (c : Nat) (inner : BuildFn)
    (hL : (w.cellAt c).locked = false) (hC : (w.cellAt c).isCached = true) :
    run (f + 1) w (.build (.singleton c inner)) =
      (.ok ⟨[(w.cellAt c).cached], none⟩, w) := by
  simp only [run]
  rw [if_neg (by simp [hL]), if_pos hC]

theorem run_singleton_eq (f : Nat) (w : World) (c : Nat) (inner : BuildFn)
    (hL : (w.cellAt c).locked = false) (hC : (w.cellAt c).isCached = false) :
    run (f + 1) w (.build (.singleton c inner)) =
      andThen (run f (w.setCell c ⟨true, false, (w.cellAt c).cached⟩) (.build inner))
        fun w₁ r => (.ok ⟨[r.vals.headD .nilv], r.err⟩,
          w₁.setCell c ⟨false, true, r.vals.headD .nilv⟩) := by
  simp only [run]
  rw [if_neg (by simp [hL]), if_neg (by simp [hC])]

theorem run_get_stackhit (f : Nat) (w : World) (i : Nat) (t : Ty) (b : Binding)
    (hres : resolve w f i (tyUnwrap t) = .ok b)
    (hmem : b.Provides ∈ (w.injAt i).stack) :
    run (f + 1) w (.get i t) = (.ok ⟨[.nilv], some .recursiveBinding⟩, w) := by
  simp only [run, hres]
  rw [if_pos hmem]

theorem run_get_err (f : Nat) (w : World) (i : Nat) (t : Ty) (e : Err)
    (hres : resolve w f i (tyUnwrap t) = .error e) :
    run (f + 1) w (.get i t) = (.ok ⟨[.nilv], some e⟩, w) := by
  simp only [run, hres]

theorem run_seqChain_some (f : Nat) (w : World) (t : Ty) (p inner : BuildFn) :
    run (f + 1) w (.build (.seqChain t (some p) inner)) =
      andThen (run f w (.build p)) fun w₁ r =>
        match r with
        | ⟨_, some e⟩ => (.ok ⟨[.nilv], some e⟩, w₁)
        | ⟨vs, none⟩ => run f w₁ (.seqStep t (elemsOf (vs.headD .nilv)) inner) := rfl

theorem run_mapChain_some (f : Nat) (w : World) (t : Ty) (p inner : BuildFn) :
    run (f + 1) w (.build (.mapChain t (some p) inner)) =
      andThen (run f w (.build p)) fun w₁ r =>
        match r with
        | ⟨_, some e⟩ => (.ok ⟨[.nilv], some e⟩, w₁)
        | ⟨vs, none⟩ => run f w₁ (.mapStep t (entriesOf (vs.headD .nilv)) inner) := rfl

theorem run_convert_unfold (f : Nat) (w : World) (target : Ty) (inner : BuildFn) :
    run (f + 1) w (.build (.convert target inner)) =
      andThen (run f w (.build inner)) fun w₁ r =>
        match r with
        | ⟨_, some e⟩ => (.ok ⟨[.nilv], some e⟩, w₁)
        | ⟨vs, none⟩ => (.ok ⟨[convertVal (vs.headD .nilv) target], none⟩, w₁) := rfl

theorem run_aggSlice_unfold (f : Nat) (w : World) (t : Ty) (parts : List BuildFn) :
    run (f + 1) w (.build (.aggSlice t parts)) =
      andThen (run f w (.each parts)) fun w₁ r =>
        match r with
        | ⟨_, some e⟩ => (.ok ⟨[.nilv], some e⟩, w₁)
        | ⟨vs, none⟩ =>
          (.ok ⟨[.vslice (tyElem t) ((vs.map elemsOf).flatten)], none⟩, w₁) := rfl

theorem run_aggMap_unfold (f : Nat) (w : World) (t : Ty) (parts : List BuildFn) :
    run (f + 1) w (.build (.aggMap t parts)) =
      andThen (run f w (.each parts)) fun w₁ r =>
        match r with
        | ⟨_, some e⟩ => (.ok ⟨[.nilv], some e⟩, w₁)
        | ⟨vs, none⟩ =>
          (.ok ⟨[.vmap (tyKey t) (tyElem t)
            (vs.foldl (fun acc v => mapOverlay acc (entriesOf v)) [])], none⟩, w₁) := rfl

theorem run_args_cons (f : Nat) (w : World) (i : Nat) (t : Ty) (rest : List Ty)
    (pos : Nat) :
    run (f + 1) w (.args i (t :: rest) pos) =
      andThen (run f w (.get i t)) fun w₁ r =>
        match r with
        | ⟨_, some e⟩ => (.ok ⟨[], some (.argErr pos e)⟩, w₁)
        | ⟨vs, none⟩ =>
          andThen (run f w₁ (.args i rest (pos + 1))) fun w₂ r₂ =>
            match r₂ with
            | ⟨_, some e⟩ => (.ok ⟨[], some e⟩, w₂)
            | ⟨vs', none⟩ => (.ok ⟨(vs.headD .nilv) :: vs', none⟩, w₂) := rfl

theorem run_each_cons (f : Nat) (w : World) (fn : BuildFn) (rest : List BuildFn) :
    run (f + 1) w (.each (fn :: rest)) =
      andThen (run f w (.build fn)) fun w₁ r =>
        match r with
        | ⟨_, some e⟩ => (.ok ⟨[], some e⟩, w₁)
        | ⟨vs, none⟩ =>
          andThen (run f w₁ (.each rest)) fun w₂ r₂ =>
            match r₂ with
            | ⟨_, some e⟩ => (.ok ⟨[], some e⟩, w₂)
            | ⟨vs', none⟩ => (.ok ⟨(vs.headD .nilv) :: vs', none⟩, w₂) := rfl

theorem run_seqStep_unfold (f : Nat) (w : World) (t : Ty) (acc : List (Ty × Nat))
    (inner : BuildFn) :
    run (f + 1) w (.seqStep t acc inner) =
      andThen (run f w (.build inner)) fun w₁ r =>
        match r with
        | ⟨_, some e⟩ => (.ok ⟨[.nilv], some e⟩, w₁)
        | ⟨vs, none⟩ =>
          (.ok ⟨[.vslice (tyElem t) (acc ++ elemsOf (vs.headD .nilv))], none⟩, w₁) := rfl

theorem run_mapStep_unfold (f : Nat) (w : World) (t : Ty)
    (acc : List ((Ty × Nat) × (Ty × Nat))) (inner : BuildFn) :
    run (f + 1) w (.mapStep t acc inner) =
      andThen (run f w (.build inner)) fun w₁ r =>
        match r with
        | ⟨_, some e⟩ => (.ok ⟨[.nilv], some e⟩, w₁)
        | ⟨vs, none⟩ =>
          (.ok ⟨[.vmap (tyKey t) (tyElem t)
            (mapOverlay acc (entriesOf (vs.headD .nilv)))], none⟩, w₁) := rfl

/-- Starting from an unlocked, uncached cell, any exit that leaves the
invocation count unchanged satisfies the bundle. -/
theorem cellBundle_of_uncached_eq {pid cid : Nat} {w w' : World} {o : Outcome}
    (hL : (w.cellAt cid).locked = false) (hC : (w.cellAt cid).isCached = false)
    (hcnt : w'.log.count pid = w.log.count pid)
    (hlock : o ≠ Outcome.hang → (w'.cellAt cid).locked = false) :
    CellBundle pid cid w w' o := by
  refine ⟨⟨fun h => absurd h (by simp [hC]), fun h => absurd h (by simp [hL]), ?_⟩,
    fun _ ho => hlock ho⟩
  rw [hcnt]
  exact Nat.le_add_right _ _

/-- Starting from an unlocked, uncached cell, an exit that caches the
cell, unlocks it, and grows the count by at most one satisfies the
bundle. -/
theorem cellBundle_of_uncached_cached {pid cid : Nat} {w w' : World} {o : Outcome}
    (hL : (w.cellAt cid).locked = false) (hC : (w.cellAt cid).isCached = false)
    (hcnt : w'.log.count pid ≤ w.log.count pid + 1)
    (hC' : (w'.cellAt cid).isCached = true)
    (hlock' : (w'.cellAt cid).locked = false) :
    CellBundle pid cid w w' o := by
  refine ⟨⟨fun h => absurd h (by simp [hC]), fun h => absurd h (by simp [hL]), ?_⟩,
    fun _ _ => hlock'⟩
  rw [if_pos ⟨hC, hC'⟩]
  exact hcnt

/-- `GuardedT` introduction forms (the definitions recurse through a
list quantifier, so they do not unfold definitionally). -/
theorem guardedT_build {pid cid : Nat} {fn : BuildFn}
    (h : GuardedB pid cid fn) : GuardedT pid cid (.build fn) := by
  simp only [GuardedT]; exact h

theorem guardedT_get (pid cid i : Nat) (t : Ty) : GuardedT pid cid (.get i t) := by
  simp only [GuardedT]

theorem guardedT_call {pid q : Nat} (cid i : Nat) (h : q ≠ pid) :
    GuardedT pid cid (.call i q) := by
  simp only [GuardedT]; exact h

theorem guardedT_args (pid cid i : Nat) (ts : List Ty) (pos : Nat) :
    GuardedT pid cid (.args i ts pos) := by
  simp only [GuardedT]

theorem guardedT_each {pid cid : Nat} {fns : List BuildFn}
    (h : ∀ fn ∈ fns, GuardedB pid cid fn) : GuardedT pid cid (.each fns) := by
  simp only [GuardedT]; exact h

theorem guardedT_seqStep {pid cid : Nat} (t : Ty) (acc : List (Ty × Nat))
    {inner : BuildFn} (h : GuardedB pid cid inner) :
    GuardedT pid cid (.seqStep t acc inner) := by
  simp only [GuardedT]; exact h

theorem guardedT_mapStep {pid cid : Nat} (t : Ty)
    (acc : List ((Ty × Nat) × (Ty × Nat))) {inner : BuildFn}
    (h : GuardedB pid cid inner) : GuardedT pid cid (.mapStep t acc inner) := by
  simp only [GuardedT]; exact h

/-- The heart of the singleton claims: in a guarded world (every path
to provider `pid` goes through singleton cell `cid`), every evaluation
respects the cell bookkeeping: a cached cell is frozen with no further
`pid` invocation, a locked cell freezes everything, the count grows at
most once and only on the uncached-to-cached transition, and the lock is
released on every non-hanging exit. -/
theorem run_guard (pid cid : Nat) : ∀ (f : Nat) (w : World) (tk : Task),
    GuardedW pid cid w → GuardedT pid cid tk → cid < w.cells.length →
    CellBundle pid cid w (run f w tk).2 (run f w tk).1 := by
  intro f
  induction f using Nat.strong_induction_on with
  | _ f ih =>
  intro w tk hg ht hcid
  cases f with
  | zero => exact cellBundle_refl pid cid w _
  | succ f =>
  have ihf := ih f (Nat.lt_succ_self f)
  cases tk with
  | build fn =>
    cases fn with
    | lit v => exact cellBundle_refl pid cid w _
    | provider j q =>
      simp only [GuardedT, GuardedB] at ht
      rw [run_provider_eq f w j q]
      refine cellBundle_andThen (ihf w (.call j q) hg (guardedT_call cid j ht) hcid) ?_
      intro w₁ r hr
      rcases r with ⟨vs, _ | e⟩
      · exact cellBundle_refl pid cid w₁ _
      · exact cellBundle_refl pid cid w₁ _
    | singleton c' inner =>
      simp only [GuardedT, GuardedB] at ht
      rcases hL : (w.cellAt c').locked with _ | _
      · rcases hC : (w.cellAt c').isCached with _ | _
        · -- unlocked, uncached: the cell is actually taken
          rw [run_singleton_eq f w c' inner hL hC]
          rcases ht with ⟨rfl, j, rfl⟩ | hgi
          · -- the guarded provider itself, under its own cell
            set wL := w.setCell c' ⟨true, false, (w.cellAt c').cached⟩ with hwLdef
            have hgL : GuardedW pid c' wL :=
              guardedW_of_sameTables hg
                (step_sameTables (Or.inr (Or.inl ⟨c', _, hwLdef⟩)))
            have hcL : c' < wL.cells.length := by
              rw [hwLdef, cells_length_setCell]; exact hcid
            have hwcell : wL.cellAt c' = ⟨true, false, (w.cellAt c').cached⟩ := by
              rw [hwLdef]; exact cellAt_setCell_self w c' _ hcid
            have hwlog : wL.log = w.log := by rw [hwLdef, log_setCell]
            cases f with
            | zero =>
              show CellBundle pid c' w wL Outcome.hang
              exact cellBundle_of_uncached_eq hL hC (by rw [hwlog])
                (fun ho => absurd rfl ho)
            | succ g =>
              rw [run_provider_eq g wL j pid]
              cases g with
              | zero =>
                show CellBundle pid c' w wL Outcome.hang
                exact cellBundle_of_uncached_eq hL hC (by rw [hwlog])
                  (fun ho => absurd rfl ho)
              | succ h =>
                rw [run_call_eq h wL j pid]
                have hargs := ih h (by omega) wL
                  (.args j ((wL.provs.getD pid default).args) 1) hgL
                  (guardedT_args pid c' j _ 1) hcL
                rcases hA : run h wL (.args j ((wL.provs.getD pid default).args) 1)
                  with ⟨oA, w₂⟩
                rw [hA] at hargs
                have hbund : CellBundle pid c' wL w₂ oA := hargs
                have hst : SameTables wL w₂ := by
                  have h0 := run_sameTables h wL
                    (.args j ((wL.provs.getD pid default).args) 1)
                  rw [hA] at h0
                  exact h0
                have hc₂ : c' < w₂.cells.length := by rw [hst.2.2.1]; exact hcL
                have hfz := hbund.1.2.1 (by rw [hwcell])
                rcases oA with rA | _
                · rcases rA with ⟨vsA, _ | eA⟩
                  · dsimp only [andThen]
                    rcases himpl : (wL.provs.getD pid default).impl vsA
                      with ⟨v, _ | ev⟩
                    · dsimp only
                      refine cellBundle_of_uncached_cached hL hC ?_ ?_ ?_
                      · rw [log_setCell, count_pushLog_self, hfz.2, hwlog]
                      · rw [cellAt_setCell_self _ c' _
                          (by rw [cells_pushLog]; exact hc₂)]
                      · rw [cellAt_setCell_self _ c' _
                          (by rw [cells_pushLog]; exact hc₂)]
                    · dsimp only
                      refine cellBundle_of_uncached_cached hL hC ?_ ?_ ?_
                      · rw [log_setCell, count_pushLog_self, hfz.2, hwlog]
                      · rw [cellAt_setCell_self _ c' _
                          (by rw [cells_pushLog]; exact hc₂)]
                      · rw [cellAt_setCell_self _ c' _
                          (by rw [cells_pushLog]; exact hc₂)]
                  · dsimp only [andThen]
                    refine cellBundle_of_uncached_cached hL hC ?_ ?_ ?_
                    · rw [log_setCell, hfz.2, hwlog]
                      exact Nat.le_succ _
                    · rw [cellAt_setCell_self _ c' _ hc₂]
                    · rw [cellAt_setCell_self _ c' _ hc₂]
                · dsimp only [andThen]
                  exact cellBundle_of_uncached_eq hL hC (by rw [hfz.2, hwlog])
                    (fun ho => absurd rfl ho)
          · by_cases hcc : c' = cid
            · subst hcc
              set wL := w.setCell c' ⟨true, false, (w.cellAt c').cached⟩ with hwLdef
              have hgL : GuardedW pid c' wL :=
                guardedW_of_sameTables hg
                  (step_sameTables (Or.inr (Or.inl ⟨c', _, hwLdef⟩)))
              have hcL : c' < wL.cells.length := by
                rw [hwLdef, cells_length_setCell]; exact hcid
              have hwcell : wL.cellAt c' = ⟨true, false, (w.cellAt c').cached⟩ := by
                rw [hwLdef]; exact cellAt_setCell_self w c' _ hcid
              have hwlog : wL.log = w.log := by rw [hwLdef, log_setCell]
              have hbundI := ihf wL (.build inner) hgL (guardedT_build hgi) hcL
              rcases hI : run f wL (.build inner) with ⟨oI, w₂⟩
              rw [hI] at hbundI
              have hbund : CellBundle pid c' wL w₂ oI := hbundI
              have hst : SameTables wL w₂ := by
                have h0 := run_sameTables f wL (.build inner)
                rw [hI] at h0
                exact h0
              have hc₂ : c' < w₂.cells.length := by rw [hst.2.2.1]; exact hcL
              have hfz := hbund.1.2.1 (by rw [hwcell])
              rcases oI with rI | _
              · dsimp only [andThen]
                refine cellBundle_of_uncached_eq hL hC ?_ ?_
                · rw [log_setCell, hfz.2, hwlog]
                · intro hno
                  rw [cellAt_setCell_self _ c' _ hc₂]
              · dsimp only [andThen]
                exact cellBundle_of_uncached_eq hL hC (by rw [hfz.2, hwlog])
                  (fun ho => absurd rfl ho)
            · refine cellBundle_andThen ?_ ?_
              · refine cellBundle_comp
                  (cellBundle_frozen
                    (cellAt_setCell_ne w c' cid ⟨true, false, (w.cellAt c').cached⟩ hcc)
                    rfl (.ok ⟨[], none⟩)) ?_
                exact ihf (w.setCell c' ⟨true, false, (w.cellAt c').cached⟩)
                  (.build inner)
                  (guardedW_of_sameTables hg
                    (step_sameTables (Or.inr (Or.inl ⟨c', _, rfl⟩))))
                  (guardedT_build hgi) (by rw [cells_length_setCell]; exact hcid)
              · intro w₁ r hr
                exact cellBundle_frozen (cellAt_setCell_ne w₁ c' cid _ hcc) rfl _
        · rw [run_singleton_cached f w c' inner hL hC]
          exact cellBundle_refl pid cid w _
      · rw [run_singleton_locked f w c' inner hL]
        exact cellBundle_refl pid cid w _
    | seqChain t prev inner =>
      cases prev with
      | none =>
        simp only [GuardedT, GuardedB] at ht
        exact ihf w (.seqStep t [] inner) hg (guardedT_seqStep t [] ht) hcid
      | some p =>
        simp only [GuardedT, GuardedB] at ht
        rw [run_seqChain_some f w t p inner]
        refine cellBundle_andThen (ihf w (.build p) hg (guardedT_build ht.1) hcid) ?_
        intro w₁ r hr
        have hst : SameTables w w₁ := by
          have h0 := run_sameTables f w (.build p)
          rw [hr] at h0
          exact h0
        have hc₁ : cid < w₁.cells.length := by rw [hst.2.2.1]; exact hcid
        rcases r with ⟨vs, _ | e⟩
        · exact ihf w₁ (.seqStep t (elemsOf (vs.headD .nilv)) inner)
            (guardedW_of_sameTables hg hst) (guardedT_seqStep t _ ht.2) hc₁
        · exact cellBundle_refl pid cid w₁ _
    | mapChain t prev inner =>
      cases prev with
      | none =>
        simp only [GuardedT, GuardedB] at ht
        exact ihf w (.mapStep t [] inner) hg (guardedT_mapStep t [] ht) hcid
      | some p =>
        simp only [GuardedT, GuardedB] at ht
        rw [run_mapChain_some f w t p inner]
        refine cellBundle_andThen (ihf w (.build p) hg (guardedT_build ht.1) hcid) ?_
        intro w₁ r hr
        have hst : SameTables w w₁ := by
          have h0 := run_sameTables f w (.build p)
          rw [hr] at h0
          exact h0
        have hc₁ : cid < w₁.cells.length := by rw [hst.2.2.1]; exact hcid
        rcases r with ⟨vs, _ | e⟩
        · exact ihf w₁ (.mapStep t (entriesOf (vs.headD .nilv)) inner)
            (guardedW_of_sameTables hg hst) (guardedT_mapStep t _ ht.2) hc₁
        · exact cellBundle_refl pid cid w₁ _
    | convert target inner =>
      simp only [GuardedT, GuardedB] at ht
      rw [run_convert_unfold f w target inner]
      refine cellBundle_andThen (ihf w (.build inner) hg (guardedT_build ht) hcid) ?_
      intro w₁ r hr
      rcases r with ⟨vs, _ | e⟩
      · exact cellBundle_refl pid cid w₁ _
      · exact cellBundle_refl pid cid w₁ _
    | aggSlice t parts =>
      simp only [GuardedT, GuardedB] at ht
      rw [run_aggSlice_unfold f w t parts]
      refine cellBundle_andThen (ihf w (.each parts) hg (guardedT_each ht) hcid) ?_
      intro w₁ r hr
      rcases r with ⟨vs, _ | e⟩
      · exact cellBundle_refl pid cid w₁ _
      · exact cellBundle_refl pid cid w₁ _
    | aggMap t parts =>
      simp only [GuardedT, GuardedB] at ht
      rw [run_aggMap_unfold f w t parts]
      refine cellBundle_andThen (ihf w (.each parts) hg (guardedT_each ht) hcid) ?_
      intro w₁ r hr
      rcases r with ⟨vs, _ | e⟩
      · exact cellBundle_refl pid cid w₁ _
      · exact cellBundle_refl pid cid w₁ _
  | get i t =>
    rcases hres : resolve w f i (tyUnwrap t) with e | b
    · rw [run_get_err f w i t e hres]
      exact cellBundle_refl pid cid w _
    · by_cases hmem : b.Provides ∈ (w.injAt i).stack
      · rw [run_get_stackhit f w i t b hres hmem]
        exact cellBundle_refl pid cid w _
      · rw [run_get_eq f w i t b hres hmem]
        have hstep : SameTables w
            (w.setInj i { w.injAt i with stack := b.Provides :: (w.injAt i).stack }) :=
          step_sameTables (Or.inl ⟨i, _, rfl⟩)
        refine cellBundle_andThen
          (cellBundle_comp (cellBundle_frozen rfl rfl (.ok ⟨[], none⟩))
            (ihf (w.setInj i { w.injAt i with stack := b.Provides :: (w.injAt i).stack })
              (.build b.Build) (guardedW_of_sameTables hg hstep)
              (guardedT_build (resolve_guarded f w i (tyUnwrap t) b hg hres)) hcid)) ?_
        intro w₁ r hr
        exact cellBundle_frozen rfl rfl _
  | call i q =>
    simp only [GuardedT] at ht
    rw [run_call_eq f w i q]
    refine cellBundle_andThen
      (ihf w (.args i ((w.provs.getD q default).args) 1) hg
        (guardedT_args pid cid i _ 1) hcid) ?_
    intro w₁ r hr
    rcases r with ⟨vs, _ | e⟩
    · dsimp only
      rcases himpl : (w.provs.getD q default).impl vs with ⟨v, _ | ev⟩
      · exact @cellBundle_frozen pid cid w₁ (w₁.pushLog q) rfl
          (count_pushLog_ne w₁ ht) _
      · exact @cellBundle_frozen pid cid w₁ (w₁.pushLog q) rfl
          (count_pushLog_ne w₁ ht) _
    · exact cellBundle_refl pid cid w₁ _
  | args i ts pos =>
    cases ts with
    | nil => exact cellBundle_refl pid cid w _
    | cons t rest =>
      rw [run_args_cons f w i t rest pos]
      refine cellBundle_andThen (ihf w (.get i t) hg (guardedT_get pid cid i t) hcid) ?_
      intro w₁ r hr
      have hst : SameTables w w₁ := by
        have h0 := run_sameTables f w (.get i t)
        rw [hr] at h0
        exact h0
      have hc₁ : cid < w₁.cells.length := by rw [hst.2.2.1]; exact hcid
      rcases r with ⟨vs, _ | e⟩
      · dsimp only
        refine cellBundle_andThen
          (ihf w₁ (.args i rest (pos + 1)) (guardedW_of_sameTables hg hst)
            (guardedT_args pid cid i rest (pos + 1)) hc₁) ?_
        intro w₂ r₂ hr₂
        rcases r₂ with ⟨vs', _ | e₂⟩
        · exact cellBundle_refl pid cid w₂ _
        · exact cellBundle_refl pid cid w₂ _
      · exact cellBundle_refl pid cid w₁ _
  | each fns =>
    cases fns with
    | nil => exact cellBundle_refl pid cid w _
    | cons fn rest =>
      simp only [GuardedT] at ht
      have hfn : GuardedB pid cid fn := ht fn (List.mem_cons_self fn rest)
      have hrest : ∀ g ∈ rest, GuardedB pid cid g :=
        fun g hgm => ht g (List.mem_cons_of_mem _ hgm)
      rw [run_each_cons f w fn rest]
      refine cellBundle_andThen (ihf w (.build fn) hg (guardedT_build hfn) hcid) ?_
      intro w₁ r hr
      have hst : SameTables w w₁ := by
        have h0 := run_sameTables f w (.build fn)
        rw [hr] at h0
        exact h0
      have hc₁ : cid < w₁.cells.length := by rw [hst.2.2.1]; exact hcid
      rcases r with ⟨vs, _ | e⟩
      · dsimp only
        refine cellBundle_andThen
          (ihf w₁ (.each rest) (guardedW_of_sameTables hg hst)
            (guardedT_each hrest) hc₁) ?_
        intro w₂ r₂ hr₂
        rcases r₂ with ⟨vs', _ | e₂⟩
        · exact cellBundle_refl pid cid w₂ _
        · exact cellBundle_refl pid cid w₂ _
      · exact cellBundle_refl pid cid w₁ _
  | seqStep t acc inner =>
    simp only [GuardedT] at ht
    rw [run_seqStep_unfold f w t acc inner]
    refine cellBundle_andThen (ihf w (.build inner) hg (guardedT_build ht) hcid) ?_
    intro w₁ r hr
    rcases r with ⟨vs, _ | e⟩
    · exact cellBundle_refl pid cid w₁ _
    · exact cellBundle_refl pid cid w₁ _
  | mapStep t acc inner =>
    simp only [GuardedT] at ht
    rw [run_mapStep_unfold f w t acc inner]
    refine cellBundle_andThen (ihf w (.build inner) hg (guardedT_build ht) hcid) ?_
    intro w₁ r hr
    rcases r with ⟨vs, _ | e⟩
    · exact cellBundle_refl pid cid w₁ _
    · exact cellBundle_refl pid cid w₁ _

/-- Over a whole guarded operation sequence the singleton cell stays
steady: cached-is-frozen, locked-is-frozen, and the provider runs at
most once, only on the uncached-to-cached transition. -/
theorem runOps_guard (pid cid fuel : Nat) : ∀ (ops : List Op) (w : World),
    GuardedW pid cid w → GuardedOps pid ops → cid < w.cells.length →
    CellSteady pid cid w (runOps fuel w ops) := by
  intro ops
  induction ops with
  | nil =>
    intro w hg hops hcid
    exact cellSteady_refl pid cid w
  | cons op ops ihop =>
    intro w hg hops hcid
    have htk : GuardedT pid cid (taskOfOp op) := by
      cases op with
      | get i t => exact guardedT_get pid cid i t
      | call i q =>
        exact guardedT_call cid i (hops (.call i q) (List.mem_cons_self _ _) i q rfl)
    have hbund := run_guard pid cid fuel w (taskOfOp op) hg htk hcid
    have hst := run_sameTables fuel w (taskOfOp op)
    simp only [runOps]
    rcases hR : run fuel w (taskOfOp op) with ⟨o, w₁⟩
    rw [hR] at hbund hst
    have hbund' : CellBundle pid cid w w₁ o := hbund
    have hst' : SameTables w w₁ := hst
    rcases o with r | _
    · exact cellSteady_comp hbund'.1
        (ihop w₁ (guardedW_of_sameTables hg hst')
          (fun op' h i q e => hops op' (List.mem_cons_of_mem _ h) i q e)
          (by rw [hst'.2.2.1]; exact hcid))
    · exact hbund'.1

/-- C2 (corrected): for a provider `pid` reachable only through a
`Singleton` wrapped in cell `cid` (`GuardedW`/`GuardedOps`), a world
that has not yet invoked it runs it at most once over any operation
sequence; and on the concrete working-singleton scenario the first
`Get` succeeds with the provider's value and exactly one invocation,
and a second `Get` returns the identical value with no further
invocation. (The original "exactly once after the first successful
Get" is refuted by `C2_counterexample`.) -/
theorem C2_singleton_at_most_once (pid cid fuel : Nat) (w : World) (ops : List Op)
    (hg : GuardedW pid cid w) (hops : GuardedOps pid ops)
    (hcid : cid < w.cells.length) (hcnt : w.log.count pid = 0) :
    (runOps fuel w ops).log.count pid ≤ 1 ∧
    ((run 20 okWorld (.get 0 (.base 8))).1 = .ok ⟨[.prim (.base 8) 9], none⟩ ∧
     okWorld2.log = [5] ∧
     (run 20 okWorld2 (.get 0 (.base 8))).1 = .ok ⟨[.prim (.base 8) 9], none⟩ ∧
     (run 20 okWorld2 (.get 0 (.base 8))).2.log = [5]) := by
  refine ⟨?_, rfl, rfl, rfl, rfl⟩
  have h := (runOps_guard pid cid fuel ops w hg hops hcid).2.2
  rw [hcnt] at h
  exact le_trans h (by split <;> omega)

theorem C2_singleton_at_most_once_witness :
    GuardedW 5 0 okWorld ∧ GuardedOps 5 [.get 0 (.base 8), .get 0 (.base 8)] ∧
    0 < okWorld.cells.length ∧ okWorld.log.count 5 = 0 ∧
    (runOps 20 okWorld [.get 0 (.base 8), .get 0 (.base 8)]).log.count 5 ≤ 1 := by
  have hg : GuardedW 5 0 okWorld := by
    intro i p hp
    rcases i with _ | i
    · rw [show (okWorld.injAt 0).bindings =
        [(Ty.base 100, ⟨Ty.base 100, [], .lit (.inj 0)⟩),
         (Ty.iface 0, ⟨Ty.base 100, [], .lit (.inj 0)⟩),
         (Ty.base 8, ⟨Ty.base 8, [], .singleton 0 (.provider 0 5)⟩)] from rfl] at hp
      simp only [List.mem_cons, List.not_mem_nil, or_false] at hp
      rcases hp with rfl | rfl | rfl
      · show GuardedB 5 0 (.lit (.inj 0))
        simp only [GuardedB]
      · show GuardedB 5 0 (.lit (.inj 0))
        simp only [GuardedB]
      · show GuardedB 5 0 (.singleton 0 (.provider 0 5))
        simp [GuardedB]
    · rw [injAt_oor okWorld (i + 1)
        (by rw [show okWorld.injectors.length = 1 from rfl]; omega)] at hp
      exact absurd hp (List.not_mem_nil p)
  have hops : GuardedOps 5 [.get 0 (.base 8), .get 0 (.base 8)] := by
    intro op hop i q heq
    simp only [List.mem_cons, List.not_mem_nil, or_false] at hop
    rcases hop with rfl | rfl <;> cases heq
  have hcid : (0 : Nat) < okWorld.cells.length := by
    rw [show okWorld.cells.length = 1 from rfl]
    omega
  have hcnt : okWorld.log.count 5 = 0 := rfl
  exact ⟨hg, hops, hcid, hcnt,
    (C2_singleton_at_most_once 5 0 20 okWorld [.get 0 (.base 8), .get 0 (.base 8)]
      hg hops hcid hcnt).1⟩

/-- C2 counterexample (against the parenthetical "exactly once after
the first successful Get"): on the failing-singleton scenario the first
`Get` fails (the provider's argument is unbound, so its function never
runs), yet the failure is cached; the second `Get` succeeds, returning
the cached nil with a nil error, and the provider's function has been
invoked zero times in total. -/
theorem C2_counterexample :
    (run 20 failWorld (.get 0 (.base 7))).1 =
      .ok ⟨[.nilv], some (.argErr 1 (.unbound (.base 50)))⟩ ∧
    (run 20 (run 20 failWorld (.get 0 (.base 7))).2 (.get 0 (.base 7))).1 =
      .ok ⟨[.nilv], none⟩ ∧
    (run 20 (run 20 failWorld (.get 0 (.base 7))).2 (.get 0 (.base 7))).2.log = [] :=
  ⟨rfl, rfl, rfl⟩

/-- C10 (confirmed): once a singleton's cell is cached — which happens
even when the first build returned an error — every further guarded
operation sequence leaves the cell cached with the identical value and
never invokes the provider again; and on the concrete erroring-singleton
scenario the first `Get` delivers the provider's error (one invocation),
caches the nil value, and the second `Get` returns nil value with nil
error, the invocation log unchanged. -/
theorem C10_singleton_error_once (pid cid fuel : Nat) (w : World) (ops : List Op)
    (hg : GuardedW pid cid w) (hops : GuardedOps pid ops)
    (hcid : cid < w.cells.length) (hcach : (w.cellAt cid).isCached = true) :
    (((runOps fuel w ops).cellAt cid).isCached = true ∧
     ((runOps fuel w ops).cellAt cid).cached = (w.cellAt cid).cached ∧
     (runOps fuel w ops).log.count pid = w.log.count pid) ∧
    ((run 20 errWorld (.get 0 (.base 9))).1 = .ok ⟨[.nilv], some (.userErr 3)⟩ ∧
     (errWorld2.cellAt 0).isCached = true ∧
     (errWorld2.cellAt 0).cached = .nilv ∧
     errWorld2.log = [6] ∧
     (run 20 errWorld2 (.get 0 (.base 9))).1 = .ok ⟨[.nilv], none⟩ ∧
     (run 20 errWorld2 (.get 0 (.base 9))).2.log = [6]) :=
  ⟨(runOps_guard pid cid fuel ops w hg hops hcid).1 hcach,
   rfl, rfl, rfl, rfl, rfl, rfl⟩

theorem C10_singleton_error_once_witness :
    GuardedW 6 0 errWorld2 ∧ GuardedOps 6 [.get 0 (.base 9)] ∧
    0 < errWorld2.cells.length ∧ (errWorld2.cellAt 0).isCached = true ∧
    ((runOps 20 errWorld2 [.get 0 (.base 9)]).cellAt 0).cached =
      (errWorld2.cellAt 0).cached := by
  have hg : GuardedW 6 0 errWorld2 := by
    intro i p hp
    rcases i with _ | i
    · rw [show (errWorld2.injAt 0).bindings =
        [(Ty.base 100, ⟨Ty.base 100, [], .lit (.inj 0)⟩),
         (Ty.iface 0, ⟨Ty.base 100, [], .lit (.inj 0)⟩),
         (Ty.base 9, ⟨Ty.base 9, [], .singleton 0 (.provider 0 6)⟩)] from rfl] at hp
      simp only [List.mem_cons, List.not_mem_nil, or_false] at hp
      rcases hp with rfl | rfl | rfl
      · show GuardedB 6 0 (.lit (.inj 0))
        simp only [GuardedB]
      · show GuardedB 6 0 (.lit (.inj 0))
        simp only [GuardedB]
      · show GuardedB 6 0 (.singleton 0 (.provider 0 6))
        simp [GuardedB]
    · rw [injAt_oor errWorld2 (i + 1)
        (by rw [show errWorld2.injectors.length = 1 from rfl]; omega)] at hp
      exact absurd hp (List.not_mem_nil p)
  have hops : GuardedOps 6 [.get 0 (.base 9)] := by
    intro op hop i q heq
    simp only [List.mem_cons, List.not_mem_nil, or_false] at hop
    subst hop
    cases heq
  have hcid : (0 : Nat) < errWorld2.cells.length := by
    rw [show errWorld2.cells.length = 1 from rfl]
    omega
  have hcach : (errWorld2.cellAt 0).isCached = true := rfl
  exact ⟨hg, hops, hcid, hcach,
    (C10_singleton_error_once 6 0 20 errWorld2 [.get 0 (.base 9)]
      hg hops hcid hcach).1.2.1⟩

end Inject
